import Mathlib

/-!
# Verification development for `backend/server.js` (Cylae/ytdl)

A shallow embedding of the download server: the title sanitiser, the job store
`jobs`, the subscriber registry `clients`, `sendUpdate`, the request handlers and
the background task of `/download-async`, followed by the theorems about them.

Conventions of the embedding.

* A JavaScript string is the list of its UTF-16 code units (`Str`), so that
  `length` and the regular expression see what the engine sees.
* `jobs` and `clients` are plain object literals.  Their own properties are a
  function from keys to `Option`; a lookup that finds no own property falls
  through to `Object.prototype` (`getProp`).
* A reply object is identified by a natural number (`Client`); the framework
  makes a new one for every request.
* `client.raw.write(chunk)` is recorded in the `wire` log of the world together
  with whether the socket accepted the chunk.  For a string chunk the call
  returns a boolean and never throws, and the source ignores the result.
* JavaScript runs a handler, and a continuation after `await`, to completion
  before anything else runs; an execution is a sequence of such steps (`step`,
  `run`).  The bytes of `crypto.randomBytes`, the outcome of the external tool
  and the Unicode case table of the engine are inputs of the model.
* `path.join` is the POSIX function of Node.js.
-/

namespace Ytdl

/-! ## Strings -/

/-- A JavaScript string: its UTF-16 code units. -/
abbrev Str := List Nat

/-- UTF-16 encoding of a literal, used to write the string constants of the source. -/
def utf16 (s : String) : Str :=
  s.toList.flatMap fun c =>
    if c.toNat < 65536 then [c.toNat]
    else [55296 + (c.toNat - 65536) / 1024, 56320 + (c.toNat - 65536) % 1024]

/-! ## The regular expression `/[^a-z0-9_.-]/gi` -/

/-- Result of `String.prototype.toUpperCase` on the one-unit string `ch`.  The ASCII part is
fixed by Unicode; the mapping of the other code units is the Unicode case table of the
engine, which is not part of the repository and is taken as the parameter `unicodeUpper`. -/
def toUpperCase (unicodeUpper : Nat → Str) (ch : Nat) : Str :=
  if ch < 128 then (if 97 ≤ ch ∧ ch ≤ 122 then [ch - 32] else [ch]) else unicodeUpper ch

/-- The abstract operation Canonicalize of ECMAScript for a pattern with the `i` flag and
without the `u` flag: a unit is replaced by its upper case when that is a single unit,
except that a non-ASCII unit is never mapped to an ASCII one. -/
def canonicalize (unicodeUpper : Nat → Str) (ch : Nat) : Nat :=
  match toUpperCase unicodeUpper ch with
  | [cu] => if 128 ≤ ch ∧ cu < 128 then ch else cu
  | _ => ch

/-- Members of the class `a-z0-9_.-` as written in the pattern. -/
def classAtoms : List Nat :=
  List.range' 97 26 ++ List.range' 48 10 ++ [95, 46, 45]

/-- Does the unit `ch` match `[a-z0-9_.-]` under the `i` flag: some member of the class has
the same canonical form as `ch`. -/
def classMatches (unicodeUpper : Nat → Str) (ch : Nat) : Bool :=
  classAtoms.any fun a => canonicalize unicodeUpper a == canonicalize unicodeUpper ch

/-- The call `s.replace(/[^a-z0-9_.-]/gi, '_')`: with the `g` flag every match of the
one-unit pattern is replaced, scanning from the left; the other units are copied. -/
def replaceDisallowed (unicodeUpper : Nat → Str) : Str → Str
  | [] => []
  | ch :: rest =>
    (if classMatches unicodeUpper ch then ch else 95) :: replaceDisallowed unicodeUpper rest

/-- A field of a parsed JSON request body, as far as the handlers distinguish values:
absent (`undefined` or `null`), a string, or some other value with its truthiness. -/
inductive Field where
  | absent
  | str (s : Str)
  | other (truthy : Bool)
  deriving DecidableEq, Repr

/-- JavaScript truthiness of a body field. -/
def Field.truthy : Field → Bool
  | .absent => false
  | .str s => !s.isEmpty
  | .other b => b

/-- Errors thrown by the JavaScript runtime. -/
inductive JsError where
  | typeError
  deriving DecidableEq, Repr

/-- The expression `(title || 'video').replace(/[^a-z0-9_.-]/gi, '_')` of both download
handlers.  A truthy value that is not a string has no `replace` method. -/
def sanitizedTitle (unicodeUpper : Nat → Str) (title : Field) : Except JsError Str :=
  match title with
  | .absent => .ok (replaceDisallowed unicodeUpper (utf16 "video"))
  | .str s => .ok (replaceDisallowed unicodeUpper (if s.isEmpty then utf16 "video" else s))
  | .other true => .error .typeError
  | .other false => .ok (replaceDisallowed unicodeUpper (utf16 "video"))

/-- Reference definition, spec §6: is the unit one of `[A-Za-z0-9_.-]`. -/
def specAllowed (ch : Nat) : Bool :=
  (65 ≤ ch && ch ≤ 90) || (97 ≤ ch && ch ≤ 122) || (48 ≤ ch && ch ≤ 57) ||
    ch == 95 || ch == 46 || ch == 45

/-- Reference definition, spec §6: every unit outside `[A-Za-z0-9_.-]` becomes `_`, and the
title is `video` when none is supplied. -/
def specSanitize (title : Option Str) : Str :=
  match title with
  | none => utf16 "video"
  | some [] => utf16 "video"
  | some t => t.map fun ch => if specAllowed ch then ch else 95

/-- The header value `attachment; filename="<sanitizedTitle>.mp4"`. -/
def contentDisposition (name : Str) : Str :=
  utf16 "attachment; filename=\"" ++ name ++ utf16 ".mp4\""

/-! ## Object literals used as maps -/

/-- Member names of `Object.prototype`.  A lookup `obj[key]` on a plain object that has no
own property `key` yields the inherited member for these keys, a function or an object,
hence a truthy value that is neither a job nor an array. -/
def objectPrototypeKeys : List Str :=
  [utf16 "constructor", utf16 "__proto__", utf16 "hasOwnProperty", utf16 "isPrototypeOf",
   utf16 "propertyIsEnumerable", utf16 "toLocaleString", utf16 "toString", utf16 "valueOf",
   utf16 "__defineGetter__", utf16 "__defineSetter__", utf16 "__lookupGetter__",
   utf16 "__lookupSetter__"]

/-- What `obj[key]` evaluates to. -/
inductive Slot (α : Type) where
  | undefined
  | inherited
  | own (v : α)
  deriving DecidableEq, Repr

/-- The lookup `obj[key]` on an object literal whose own properties are `obj`. -/
def getProp {α : Type} (obj : Str → Option α) (key : Str) : Slot α :=
  match obj key with
  | some v => .own v
  | none => if key ∈ objectPrototypeKeys then .inherited else .undefined

/-- The assignment `obj[key] = v`. -/
def setProp {α : Type} (obj : Str → Option α) (key : Str) (v : α) : Str → Option α :=
  fun k => if k = key then some v else obj k

/-- The statement `delete obj[key]`. -/
def deleteProp {α : Type} (obj : Str → Option α) (key : Str) : Str → Option α :=
  fun k => if k = key then none else obj k

/-! ## Data model -/

/-- Values of the `status` field of a job. -/
inductive Status where
  | starting
  | downloading
  | merging
  | complete
  | failed
  deriving DecidableEq, Repr

/-- The string stored in the `status` field. -/
def Status.toStr : Status → Str
  | .starting => utf16 "starting"
  | .downloading => utf16 "downloading"
  | .merging => utf16 "merging"
  | .complete => utf16 "complete"
  | .failed => utf16 "failed"

/-- A value of the `jobs` object. -/
structure Job where
  status : Status
  progress : Nat
  outputPath : Str
  title : Str
  deriving DecidableEq, Repr

/-- Identity of a reply object, hence of one status connection. -/
abbrev Client := Nat

/-- Payload handed to `sendUpdate`.  A field that is `undefined` is `none`;
`JSON.stringify` leaves it out. -/
structure Event where
  status : Option Status
  progress : Option Nat
  message : Str
  file : Option Str
  deriving DecidableEq, Repr

/-- One call `client.raw.write(...)`: the connection, the event serialised into the chunk
and whether the socket took it. -/
structure Write where
  client : Client
  data : Event
  accepted : Bool
  deriving DecidableEq, Repr

/-- State of the server process and of its environment.
`jobs` and `clients` are the two module-level objects; `pending` lists the job ids of the
background tasks suspended at `await dl`; `nextReply` is the identity the framework gives to
the next reply object; `dead` lists the connections whose socket no longer takes data;
`wire` logs the calls of `write` and `published` the calls of `sendUpdate`. -/
structure World where
  jobs : Str → Option Job
  clients : Str → Option (List Client)
  pending : List Str
  nextReply : Nat
  dead : List Client
  wire : List Write
  published : List (Str × Event)

/-- The process right after start-up. -/
def World.init : World :=
  { jobs := fun _ => none, clients := fun _ => none, pending := [], nextReply := 0,
    dead := [], wire := [], published := [] }

/-- Result of running a piece of code: the world it leaves and the exception that ended it,
if any. -/
structure Outcome where
  world : World
  thrown : Option JsError

/-- Sequencing: the second piece runs only when the first one did not throw. -/
def Outcome.andThen (o : Outcome) (f : World → Outcome) : Outcome :=
  match o.thrown with
  | none => f o.world
  | some _ => o

/-- What a handler hands to the framework. -/
inductive Response where
  | error (code : Nat) (message : Str)
  | jobId (id : Str)
  | fileStream (path : Str) (disposition : Str) (contentType : Str)
  | toolStream (disposition : Str) (contentType : Str)
  | eventStream
  | thrown (e : JsError)
  deriving DecidableEq, Repr

/-! ## `sendUpdate` -/

/-- The function `sendUpdate(jobId, data)`: when `clients[jobId]` is truthy, one `write` per
registered connection, in the order of the array. -/
def sendUpdate (w : World) (jobId : Str) (data : Event) : Outcome :=
  let w1 := { w with published := w.published ++ [(jobId, data)] }
  match getProp w.clients jobId with
  | .undefined => ⟨w1, none⟩
  | .inherited => ⟨w1, some .typeError⟩
  | .own l =>
    ⟨{ w1 with wire := w1.wire ++ l.map fun c => ⟨c, data, !(w.dead.contains c)⟩ }, none⟩

/-! ## Job ids and output paths -/

/-- Sixteen bytes, as returned by `crypto.randomBytes(16)`. -/
structure Bytes16 where
  data : List Nat
  size : data.length = 16
  byte : ∀ b ∈ data, b < 256

/-- One lower-case hexadecimal digit. -/
def hexDigit (n : Nat) : Nat :=
  if n < 10 then 48 + n else 87 + n

/-- The method `Buffer.prototype.toString('hex')`: two digits per byte. -/
def hexEncode (bytes : List Nat) : Str :=
  bytes.flatMap fun b => [hexDigit (b / 16), hexDigit (b % 16)]

/-- Is the unit one of `0-9a-f`. -/
def isHexDigit (ch : Nat) : Bool :=
  (48 ≤ ch && ch ≤ 57) || (97 ≤ ch && ch ≤ 102)

/-- Pieces of a path between the separators `/`. -/
def splitSlash : Str → List Str
  | [] => [[]]
  | ch :: rest =>
    if ch = 47 then [] :: splitSlash rest
    else
      match splitSlash rest with
      | [] => [[ch]]
      | seg :: segs => (ch :: seg) :: segs

/-- The helper `normalizeString` of the `path` module of Node.js, on the segments of a path:
empty segments and `.` are dropped, `..` removes the segment before it when there is one
that is not `..` itself and is otherwise kept only if `allowAboveRoot`.  `stack` holds the
segments kept so far, last one first. -/
def normalizeSegments (allowAboveRoot : Bool) : List Str → List Str → List Str
  | stack, [] => stack.reverse
  | stack, seg :: rest =>
    if seg = [] ∨ seg = utf16 "." then normalizeSegments allowAboveRoot stack rest
    else if seg = utf16 ".." then
      match stack with
      | top :: below =>
        if top = utf16 ".." then
          normalizeSegments allowAboveRoot
            (if allowAboveRoot then seg :: stack else stack) rest
        else normalizeSegments allowAboveRoot below rest
      | [] =>
        normalizeSegments allowAboveRoot (if allowAboveRoot then [seg] else []) rest
    else normalizeSegments allowAboveRoot (seg :: stack) rest

/-- Segments put together with `/` between them. -/
def joinSlash : List Str → Str
  | [] => []
  | [seg] => seg
  | seg :: rest => seg ++ 47 :: joinSlash rest

/-- The function `path.posix.normalize` of Node.js (the library is not part of the
repository; this follows its documented algorithm). -/
def posixNormalize (path : Str) : Str :=
  if path = [] then utf16 "."
  else
    let isAbsolute := path.head? = some 47
    let trailing := path.getLast? = some 47
    let body := joinSlash (normalizeSegments (!isAbsolute) [] (splitSlash path))
    if body = [] then
      (if isAbsolute then [47] else if trailing then utf16 "./" else utf16 ".")
    else
      let body := if trailing then body ++ [47] else body
      if isAbsolute then 47 :: body else body

/-- The function `path.join(a, b)` of Node.js on a POSIX system: the non-empty arguments are
joined with `/` and the result is normalised. -/
def pathJoin (a b : Str) : Str :=
  if a = [] then (if b = [] then utf16 "." else posixNormalize b)
  else if b = [] then posixNormalize a
  else posixNormalize (a ++ 47 :: b)

/-- The constant `DOWNLOAD_DIR = path.join(__dirname, 'downloads')`; the directory of the
module is a parameter. -/
def DOWNLOAD_DIR (dirname : Str) : Str :=
  pathJoin dirname (utf16 "downloads")

/-- The expression `path.join(DOWNLOAD_DIR, jobId + '_' + sanitizedTitle + '.mp4')`. -/
def outputPath (dirname jobId title : Str) : Str :=
  pathJoin (DOWNLOAD_DIR dirname) (jobId ++ utf16 "_" ++ title ++ utf16 ".mp4")

/-! ## The handlers -/

/-- Body of `POST /download-sync`. -/
structure SyncRequest where
  url : Field
  format_id : Field
  title : Field

/-- Body of `POST /download-async`. -/
structure AsyncRequest where
  url : Field
  format : Field
  title : Field

/-- The handler of `POST /download-sync`; `spawnError` tells whether `ytDlp.exec` throws.
The handler touches neither `jobs` nor `clients`. -/
def downloadSync (unicodeUpper : Nat → Str) (req : SyncRequest) (spawnError : Option Str) :
    Response :=
  if !req.url.truthy || !req.format_id.truthy then
    .error 400 (utf16 "URL and format_id are required")
  else
    match sanitizedTitle unicodeUpper req.title with
    | .error _ => .error 500 (utf16 "Failed to download video")
    | .ok title =>
      match spawnError with
      | some _ => .error 500 (utf16 "Failed to download video")
      | none => .toolStream (contentDisposition title) (utf16 "video/mp4")

/-- The assignment `jobs[jobId].status = s`.  When the job id is a member name of
`Object.prototype` and no job is stored under it, the write lands on the inherited object,
which the embedding does not track; job ids have 32 units, so this does not occur. -/
def setStatus (w : World) (jobId : Str) (s : Status) : Outcome :=
  match getProp w.jobs jobId with
  | .own job => ⟨{ w with jobs := setProp w.jobs jobId { job with status := s } }, none⟩
  | .inherited => ⟨w, none⟩
  | .undefined => ⟨w, some .typeError⟩

/-- The assignment `jobs[jobId].progress = p`, with the same remark as for `setStatus`. -/
def setProgress (w : World) (jobId : Str) (p : Nat) : Outcome :=
  match getProp w.jobs jobId with
  | .own job => ⟨{ w with jobs := setProp w.jobs jobId { job with progress := p } }, none⟩
  | .inherited => ⟨w, none⟩
  | .undefined => ⟨w, some .typeError⟩

/-- Event of the transition to `downloading`. -/
def evDownloading : Event :=
  ⟨some .downloading, some 0, utf16 "Starting download...", none⟩

/-- Event of the transition to `merging`. -/
def evMerging : Event :=
  ⟨some .merging, some 50, utf16 "Merging formats...", none⟩

/-- Event of the transition to `complete`. -/
def evComplete (jobId : Str) : Event :=
  ⟨some .complete, some 100, utf16 "Download complete!", some (utf16 "/download-file/" ++ jobId)⟩

/-- Event of the transition to `failed`; it has no `progress` field. -/
def evFailed : Event :=
  ⟨some .failed, none, utf16 "An error occurred during download.", none⟩

/-- Lines 119 to 128 of the source: the job record is stored under the new id. -/
def createJob (dirname : Str) (w : World) (jobId title : Str) : World :=
  { w with
    jobs := setProp w.jobs jobId
      { status := .starting, progress := 0, outputPath := outputPath dirname jobId title,
        title := title } }

/-- The `catch` block of the background task.  The caught error goes to `console.error`
only.  An exception thrown here rejects the promise of the task, which nobody awaits. -/
def taskCatch (w : World) (jobId : Str) : World :=
  ((setStatus w jobId .failed).andThen fun w1 => sendUpdate w1 jobId evFailed).world

/-- The background task from its start to `await dl`.  `spawnError` is the error thrown by
`ytDlp.exec` itself, if any; otherwise the task is suspended until the tool exits. -/
def taskStart (w : World) (jobId : Str) (spawnError : Option Str) : World :=
  let o := (setStatus w jobId .downloading).andThen fun w1 => sendUpdate w1 jobId evDownloading
  match o.thrown with
  | some _ => taskCatch o.world jobId
  | none =>
    match spawnError with
    | some _ => taskCatch o.world jobId
    | none => { o.world with pending := o.world.pending ++ [jobId] }

/-- The background task after `await dl`.  `result` is `none` when the tool succeeded and
the error it was rejected with otherwise. -/
def taskResume (w : World) (jobId : Str) (result : Option Str) : World :=
  match result with
  | some _ => taskCatch w jobId
  | none =>
    let o :=
      (setStatus w jobId .merging).andThen fun w1 =>
      (sendUpdate w1 jobId evMerging).andThen fun w2 =>
      (setStatus w2 jobId .complete).andThen fun w3 =>
      (setProgress w3 jobId 100).andThen fun w4 =>
      sendUpdate w4 jobId (evComplete jobId)
    match o.thrown with
    | some _ => taskCatch o.world jobId
    | none => o.world

/-- The handler of `POST /download-async`, up to the point where the background task is
suspended or has ended. -/
def downloadAsync (unicodeUpper : Nat → Str) (dirname : Str) (w : World) (req : AsyncRequest)
    (bytes : Bytes16) (spawnError : Option Str) : Response × World :=
  if !req.url.truthy || !req.format.truthy then
    (.error 400 (utf16 "URL and format are required"), w)
  else
    let jobId := hexEncode bytes.data
    match sanitizedTitle unicodeUpper req.title with
    | .error e => (.thrown e, w)
    | .ok title => (.jobId jobId, taskStart (createJob dirname w jobId title) jobId spawnError)

/-- The statements `if (!clients[id]) clients[id] = []; clients[id].push(reply)`.  An inherited
member of `Object.prototype` is truthy and has no `push`. -/
def registerClient (w : World) (id : Str) (reply : Client) : Outcome :=
  match getProp w.clients id with
  | .undefined => ⟨{ w with clients := setProp w.clients id [reply] }, none⟩
  | .own l => ⟨{ w with clients := setProp w.clients id (l ++ [reply]) }, none⟩
  | .inherited => ⟨w, some .typeError⟩

/-- The event built when `jobs[id]` is truthy. -/
def snapshotEvent (slot : Slot Job) : Option Event :=
  match slot with
  | .own job =>
    some ⟨some job.status, some job.progress,
      utf16 "Reconnected. Current status: " ++ job.status.toStr, none⟩
  | .inherited => some ⟨none, none, utf16 "Reconnected. Current status: undefined", none⟩
  | .undefined => none

/-- The handler of `GET /download-status/:id` for the reply object `reply`. -/
def downloadStatus (w : World) (id : Str) (reply : Client) : Outcome :=
  (registerClient w id reply).andThen fun w1 =>
    match snapshotEvent (getProp w1.jobs id) with
    | some ev => sendUpdate w1 id ev
    | none => ⟨w1, none⟩

/-- The listener of the `close` event registered by the status handler for `reply`. -/
def closeHandler (w : World) (id : Str) (reply : Client) : Outcome :=
  match getProp w.clients id with
  | .own l =>
    let kept := l.filter fun c => c ≠ reply
    if kept.length = 0 then ⟨{ w with clients := deleteProp w.clients id }, none⟩
    else ⟨{ w with clients := setProp w.clients id kept }, none⟩
  | .inherited => ⟨w, some .typeError⟩
  | .undefined => ⟨w, some .typeError⟩

/-- The handler of `GET /download-file/:id`. -/
def downloadFile (w : World) (id : Str) : Response × World :=
  match getProp w.jobs id with
  | .own job =>
    if job.status ≠ .complete then (.error 404 (utf16 "File not ready or not found."), w)
    else (.fileStream job.outputPath (contentDisposition job.title) (utf16 "video/mp4"), w)
  | .inherited => (.error 404 (utf16 "File not ready or not found."), w)
  | .undefined => (.error 404 (utf16 "File not ready or not found."), w)

/-! ## Executions -/

/-- What can happen to the process: a request for one of the stateful routes, the exit of the
external tool for a suspended task, the `close` event of a connection, the death of a
socket. -/
inductive Action where
  | downloadAsync (req : AsyncRequest) (bytes : Bytes16) (spawnError : Option Str)
  | toolExit (jobId : Str) (result : Option Str)
  | downloadStatus (id : Str)
  | close (id : Str) (reply : Client)
  | downloadFile (id : Str)
  | socketDies (reply : Client)

/-- One atomic step: JavaScript runs each handler and each continuation to completion.  The
continuation of a task runs once, for a task that is suspended.  The `close` listener may
run for any connection; this covers every real schedule. -/
def step (unicodeUpper : Nat → Str) (dirname : Str) (w : World) : Action → World
  | .downloadAsync req bytes spawnError =>
    (downloadAsync unicodeUpper dirname w req bytes spawnError).2
  | .toolExit jobId result =>
    if jobId ∈ w.pending then
      taskResume { w with pending := w.pending.erase jobId } jobId result
    else w
  | .downloadStatus id =>
    (downloadStatus { w with nextReply := w.nextReply + 1 } id w.nextReply).world
  | .close id reply => (closeHandler w id reply).world
  | .downloadFile id => (downloadFile w id).2
  | .socketDies reply => { w with dead := reply :: w.dead }

/-- The world after a sequence of steps. -/
def run (unicodeUpper : Nat → Str) (dirname : Str) (w : World) : List Action → World
  | [] => w
  | a :: rest => run unicodeUpper dirname (step unicodeUpper dirname w a) rest

/-- Worlds the process can be in. -/
def Reachable (unicodeUpper : Nat → Str) (dirname : Str) (w : World) : Prop :=
  ∃ actions, w = run unicodeUpper dirname World.init actions

/-- The request passes the validation of `POST /download-async` and its title can be
sanitised, so that the handler creates a job. -/
def Accepted (unicodeUpper : Nat → Str) (req : AsyncRequest) : Prop :=
  req.url.truthy = true ∧ req.format.truthy = true ∧
    ∃ title, sanitizedTitle unicodeUpper req.title = .ok title

/-- Every job creation of the sequence draws an id under which no job is stored yet. -/
def FreshIds (unicodeUpper : Nat → Str) (dirname : Str) : World → List Action → Prop
  | _, [] => True
  | w, a :: rest =>
    (match a with
      | .downloadAsync req bytes _ =>
        Accepted unicodeUpper req → w.jobs (hexEncode bytes.data) = none
      | _ => True) ∧
    FreshIds unicodeUpper dirname (step unicodeUpper dirname w a) rest

/-- Events written to one connection, oldest first. -/
def eventsTo (w : World) (r : Client) : List Event :=
  (w.wire.filter fun x => x.client = r).map fun x => x.data

/-- Status values of the events written to one connection, oldest first. -/
def statusesTo (w : World) (r : Client) : List Status :=
  (eventsTo w r).filterMap fun e => e.status

/-- The order of the happy path. -/
def happyPath : List Status := [.starting, .downloading, .merging, .complete]

/-- The order of the failure path. -/
def failurePath : List Status := [.starting, .downloading, .failed]

/-- A list with each run of equal neighbours reduced to one element. -/
def squeeze : List Status → List Status
  | [] => []
  | [s] => [s]
  | s :: t :: rest => if s = t then squeeze (t :: rest) else s :: squeeze (t :: rest)

/-! ## Auxiliary notions for the proofs -/

/-- ASCII upper case, the restriction of Canonicalize to ASCII units. -/
def asciiUpper (ch : Nat) : Nat :=
  if 97 ≤ ch ∧ ch ≤ 122 then ch - 32 else ch

/-- Connections registered under an id, in the order of the array. -/
def subscribers (w : World) (id : Str) : List Client :=
  (w.clients id).getD []

/-- The writes of one `forEach` over the connections `l`. -/
def writesOf (w : World) (l : List Client) (data : Event) : List Write :=
  l.map fun c => ⟨c, data, !(w.dead.contains c)⟩

/-- Facts that hold of every world the process can be in. -/
structure Inv (w : World) : Prop where
  keyLength : ∀ id job, w.jobs id = some job → id.length = 32
  completeProgress :
    ∀ id job, w.jobs id = some job → job.status = .complete → job.progress = 100
  pendingStored : ∀ id ∈ w.pending, ∃ job, w.jobs id = some job
  registeredOld : ∀ id l, w.clients id = some l → ∀ r ∈ l, r < w.nextReply
  wireOld : ∀ x ∈ w.wire, x.client < w.nextReply
  oneId : ∀ id id2 l l2 r, w.clients id = some l → w.clients id2 = some l2 →
    r ∈ l → r ∈ l2 → id = id2
  nodup : ∀ id l, w.clients id = some l → l.Nodup

/-- The world `w2` arises from `w` by a piece of the background task of the job `id` that
leaves the record `job2` under the id and publishes the events `evs`. -/
structure TaskStep (w w2 : World) (id : Str) (job2 : Job) (evs : List Event) : Prop where
  jobs : w2.jobs = setProp w.jobs id job2
  clients : w2.clients = w.clients
  nextReply : w2.nextReply = w.nextReply
  dead : w2.dead = w.dead
  wire : w2.wire = w.wire ++ evs.flatMap fun e => writesOf w (subscribers w id) e
  published : w2.published = w.published ++ evs.map fun e => (id, e)

/-- The writes of the snapshot of the status handler. -/
def snapshotWrites (w : World) (id : Str) (l : List Client) : List Write :=
  match snapshotEvent (getProp w.jobs id) with
  | some ev => writesOf w l ev
  | none => []

/-- The `sendUpdate` call of the snapshot of the status handler. -/
def snapshotPublished (w : World) (id : Str) : List (Str × Event) :=
  match snapshotEvent (getProp w.jobs id) with
  | some ev => [(id, ev)]
  | none => []

/-! ## Concrete inputs used to exercise the theorems -/

/-- A case table with the mappings that matter for ASCII: the long s has upper case `S`,
the dotless i has `I`, the sharp s has the two units `SS`; the Kelvin sign is its own upper
case. -/
def sampleUpper : Nat → Str := fun c =>
  if c = 383 then [83] else if c = 305 then [73] else if c = 223 then [83, 83] else [c]

/-- Sixteen zero bytes. -/
def zeroBytes : Bytes16 := ⟨List.replicate 16 0, by decide, by decide⟩

/-- Sixteen bytes `0xab`. -/
def otherBytes : Bytes16 := ⟨List.replicate 16 171, by decide, by decide⟩

/-- The id drawn from `zeroBytes`. -/
def zeroId : Str := hexEncode zeroBytes.data

/-- A well-formed body of `POST /download-async`. -/
def sampleRequest : AsyncRequest :=
  ⟨.str (utf16 "https://example.org/v"), .str (utf16 "best"), .str (utf16 "My Video! 2024")⟩

/-- The directory of the module in the examples. -/
def sampleDir : Str := utf16 "/srv/app"

/-- The world after one job was created and its tool succeeded. -/
def doneWorld : World :=
  run sampleUpper sampleDir World.init
    [.downloadAsync sampleRequest zeroBytes none, .toolExit zeroId none]

/-- The world after one job was created and its tool failed. -/
def failedWorld : World :=
  run sampleUpper sampleDir World.init
    [.downloadAsync sampleRequest zeroBytes none, .toolExit zeroId (some (utf16 "exit 1"))]

/-- The world after one job was created, with its task suspended. -/
def busyWorld : World :=
  run sampleUpper sampleDir World.init [.downloadAsync sampleRequest zeroBytes none]

/-- A world with two connections registered under `zeroId`, the first with a dead socket. -/
def twoClients : World :=
  { World.init with
    clients := setProp World.init.clients zeroId [0, 1], nextReply := 2, dead := [0] }

/-- The part of a path after its last `/`, the whole path when it has none. -/
def afterLastSlash : Str → Str
  | [] => []
  | ch :: rest =>
    if 47 ∈ rest then afterLastSlash rest else if ch = 47 then rest else ch :: rest

/-- A path segment that normalisation keeps as it is: not empty, without `/`, and neither
`.` nor `..`. -/
def PlainSegment (name : Str) : Prop :=
  name ≠ [] ∧ 47 ∉ name ∧ name ≠ utf16 "." ∧ name ≠ utf16 ".."

/-- Order of the status values along the two paths of the state machine: `starting` comes
first, then `downloading`, then either `merging` and `complete`, or `failed`. -/
def Status.le : Status → Status → Bool
  | .starting, _ => true
  | .downloading, .starting => false
  | .downloading, _ => true
  | .merging, .merging => true
  | .merging, .complete => true
  | .merging, _ => false
  | .complete, .complete => true
  | .complete, _ => false
  | .failed, .failed => true
  | .failed, _ => false

/-- Strictly earlier on one of the two paths. -/
def Status.lt (a b : Status) : Bool :=
  Status.le a b && decide (a ≠ b)

/-- Position of a status on its path. -/
def Status.rank : Status → Nat
  | .starting => 0
  | .downloading => 1
  | .merging => 2
  | .failed => 2
  | .complete => 3

/-- Status values of the snapshot that the status handler sends for an id. -/
def snapshotStatuses (w : World) (id : Str) : List Status :=
  (snapshotEvent (getProp w.jobs id)).toList.filterMap fun e => e.status

/-- Facts that hold of every world reached by job creations with new ids: a suspended task
belongs to a job that is `downloading`, and what a connection has been sent so far is in
order and not ahead of the job it is registered for. -/
structure Ordered (w : World) : Prop where
  pendingDownloading :
    ∀ id ∈ w.pending, ∃ job, w.jobs id = some job ∧ job.status = .downloading
  pendingNodup : w.pending.Nodup
  mono : ∀ r, (statusesTo w r).Pairwise fun a b => Status.le a b = true
  bounded : ∀ id l r job, w.clients id = some l → r ∈ l → w.jobs id = some job →
    ∀ y ∈ statusesTo w r, Status.le y job.status = true
  quiet : ∀ id l r, w.clients id = some l → r ∈ l → w.jobs id = none → statusesTo w r = []

/-! ## The sanitiser -/

theorem canonicalize_ascii (up : Nat → Str) (ch : Nat) (h : ch < 128) :
    canonicalize up ch = asciiUpper ch := by
  unfold canonicalize toUpperCase asciiUpper
  rw [if_pos h]
  by_cases hl : 97 ≤ ch ∧ ch ≤ 122
  · have : ¬ (128 ≤ ch ∧ ch - 32 < 128) := by omega
    simp only [hl, this, and_self, if_true, if_false]
  · have : ¬ (128 ≤ ch ∧ ch < 128) := by omega
    simp only [hl, this, if_false]

theorem canonicalize_nonascii (up : Nat → Str) (ch : Nat) (h : 128 ≤ ch) :
    128 ≤ canonicalize up ch := by
  unfold canonicalize
  split
  · rename_i cu _
    by_cases hc : cu < 128
    · rw [if_pos ⟨h, hc⟩]; exact h
    · rw [if_neg (fun hh => hc hh.2)]; omega
  · exact h

theorem classAtoms_lt : ∀ a ∈ classAtoms, a < 128 := by decide

theorem ascii_class_table :
    ∀ ch, ch < 128 →
      (classAtoms.any fun a => asciiUpper a == asciiUpper ch) = specAllowed ch := by
  decide

theorem specAllowed_lt (ch : Nat) (h : specAllowed ch = true) : ch < 128 := by
  simp only [specAllowed, Bool.or_eq_true, Bool.and_eq_true, decide_eq_true_eq,
    beq_iff_eq] at h
  omega

theorem classMatches_eq_specAllowed (up : Nat → Str) (ch : Nat) :
    classMatches up ch = specAllowed ch := by
  unfold classMatches
  by_cases h : ch < 128
  · rw [← ascii_class_table ch h, canonicalize_ascii up ch h]
    rw [Bool.eq_iff_iff, List.any_eq_true, List.any_eq_true]
    constructor
    · rintro ⟨a, ha, hx⟩
      exact ⟨a, ha, by rwa [canonicalize_ascii up a (classAtoms_lt a ha)] at hx⟩
    · rintro ⟨a, ha, hx⟩
      exact ⟨a, ha, by rwa [canonicalize_ascii up a (classAtoms_lt a ha)]⟩
  · have hs : specAllowed ch = false := by
      cases hc : specAllowed ch
      · rfl
      · exact absurd (specAllowed_lt ch hc) h
    rw [hs, Bool.eq_false_iff]
    intro hany
    rw [List.any_eq_true] at hany
    obtain ⟨a, ha, hx⟩ := hany
    have h1 := classAtoms_lt a ha
    have h2 := canonicalize_nonascii up ch (Nat.le_of_not_lt h)
    rw [canonicalize_ascii up a h1, beq_iff_eq] at hx
    have h3 : asciiUpper a < 128 := by
      unfold asciiUpper; split <;> omega
    omega

theorem replaceDisallowed_eq_map (up : Nat → Str) (t : Str) :
    replaceDisallowed up t = t.map fun ch => if specAllowed ch then ch else 95 := by
  induction t with
  | nil => rfl
  | cons ch rest ih =>
    simp only [replaceDisallowed, List.map_cons, classMatches_eq_specAllowed, ih]

theorem replaceDisallowed_video (up : Nat → Str) :
    replaceDisallowed up (utf16 "video") = utf16 "video" := by
  rw [replaceDisallowed_eq_map]; decide

theorem sanitizedTitle_str (up : Nat → Str) (t : Str) :
    sanitizedTitle up (.str t) = .ok (specSanitize (some t)) := by
  cases t with
  | nil => simp only [sanitizedTitle, specSanitize, List.isEmpty, if_true,
      replaceDisallowed_video]
  | cons c r =>
    simp only [sanitizedTitle, specSanitize, List.isEmpty, replaceDisallowed_eq_map]
    rfl

theorem sanitizedTitle_absent (up : Nat → Str) :
    sanitizedTitle up .absent = .ok (specSanitize none) := by
  simp only [sanitizedTitle, specSanitize, replaceDisallowed_video]

/-! ## Object lookups -/

theorem hexEncode_length (l : List Nat) : (hexEncode l).length = 2 * l.length := by
  induction l with
  | nil => rfl
  | cons b rest ih =>
    simp only [hexEncode, List.flatMap_cons, List.length_append, List.length_cons,
      List.length_nil] at ih ⊢
    omega

theorem jobId_length (bytes : Bytes16) : (hexEncode bytes.data).length = 32 := by
  rw [hexEncode_length, bytes.size]

theorem prototypeKeys_length : ∀ k ∈ objectPrototypeKeys, k.length ≠ 32 := by decide

theorem not_prototypeKey_of_length {id : Str} (h : id.length = 32) :
    id ∉ objectPrototypeKeys :=
  fun hm => prototypeKeys_length id hm h

theorem getProp_some {α : Type} (obj : Str → Option α) (k : Str) (v : α) (h : obj k = some v) :
    getProp obj k = .own v := by
  simp only [getProp, h]

theorem getProp_none {α : Type} (obj : Str → Option α) (k : Str) (h : obj k = none)
    (hk : k ∉ objectPrototypeKeys) : getProp obj k = .undefined := by
  simp only [getProp, h, hk, if_false]

theorem getProp_none_proto {α : Type} (obj : Str → Option α) (k : Str) (h : obj k = none)
    (hk : k ∈ objectPrototypeKeys) : getProp obj k = .inherited := by
  simp only [getProp, h, hk, if_true]

theorem setProp_same {α : Type} (obj : Str → Option α) (k : Str) (v : α) :
    setProp obj k v k = some v := by
  simp only [setProp, if_true]

theorem setProp_other {α : Type} (obj : Str → Option α) (k k2 : Str) (v : α) (h : k2 ≠ k) :
    setProp obj k v k2 = obj k2 := by
  simp only [setProp, h, if_false]

theorem setProp_setProp {α : Type} (obj : Str → Option α) (k : Str) (v v2 : α) :
    setProp (setProp obj k v) k v2 = setProp obj k v2 := by
  funext x
  by_cases h : x = k <;> simp [setProp, h]

/-! ## Normal forms of `sendUpdate` and of the background task -/

theorem sendUpdate_ordinary (w : World) (id : Str) (data : Event)
    (hk : id ∉ objectPrototypeKeys) :
    sendUpdate w id data =
      ⟨{ w with
          published := w.published ++ [(id, data)]
          wire := w.wire ++ writesOf w (subscribers w id) data }, none⟩ := by
  unfold sendUpdate subscribers writesOf
  cases h : w.clients id with
  | none => simp [getProp, h, hk]
  | some l => simp [getProp, h]

theorem sendUpdate_registered (w : World) (id : Str) (data : Event) (l : List Client)
    (h : w.clients id = some l) :
    sendUpdate w id data =
      ⟨{ w with
          published := w.published ++ [(id, data)]
          wire := w.wire ++ writesOf w l data }, none⟩ := by
  unfold sendUpdate writesOf
  simp [getProp, h]

theorem setStatus_stored (w : World) (id : Str) (s : Status) (job : Job)
    (h : w.jobs id = some job) :
    setStatus w id s = ⟨{ w with jobs := setProp w.jobs id { job with status := s } }, none⟩ := by
  simp only [setStatus, getProp, h]

theorem setProgress_stored (w : World) (id : Str) (p : Nat) (job : Job)
    (h : w.jobs id = some job) :
    setProgress w id p =
      ⟨{ w with jobs := setProp w.jobs id { job with progress := p } }, none⟩ := by
  simp only [setProgress, getProp, h]

theorem taskCatch_stored (w : World) (id : Str) (job : Job)
    (hk : id ∉ objectPrototypeKeys) (h : w.jobs id = some job) :
    taskCatch w id =
      { w with
        jobs := setProp w.jobs id { job with status := .failed }
        published := w.published ++ [(id, evFailed)]
        wire := w.wire ++ writesOf w (subscribers w id) evFailed } := by
  unfold taskCatch
  rw [setStatus_stored w id .failed job h]
  simp only [Outcome.andThen]
  rw [sendUpdate_ordinary _ id _ hk]
  rfl

theorem taskStart_stored (w : World) (id : Str) (job : Job)
    (hk : id ∉ objectPrototypeKeys) (h : w.jobs id = some job) :
    taskStart w id none =
      { w with
        jobs := setProp w.jobs id { job with status := .downloading }
        published := w.published ++ [(id, evDownloading)]
        wire := w.wire ++ writesOf w (subscribers w id) evDownloading
        pending := w.pending ++ [id] } := by
  unfold taskStart
  rw [setStatus_stored w id .downloading job h]
  simp only [Outcome.andThen]
  rw [sendUpdate_ordinary _ id _ hk]
  rfl

theorem taskStart_stored_spawnError (w : World) (id : Str) (job : Job) (err : Str)
    (hk : id ∉ objectPrototypeKeys) (h : w.jobs id = some job) :
    taskStart w id (some err) =
      { w with
        jobs := setProp w.jobs id { job with status := .failed }
        published := w.published ++ [(id, evDownloading), (id, evFailed)]
        wire := w.wire ++ writesOf w (subscribers w id) evDownloading
          ++ writesOf w (subscribers w id) evFailed } := by
  unfold taskStart
  rw [setStatus_stored w id .downloading job h]
  simp only [Outcome.andThen]
  rw [sendUpdate_ordinary _ id _ hk]
  simp only []
  rw [taskCatch_stored _ id { job with status := .downloading } hk (setProp_same _ _ _)]
  simp only [setProp_setProp, List.append_assoc, List.cons_append, List.nil_append]
  rfl

theorem taskResume_stored (w : World) (id : Str) (job : Job)
    (hk : id ∉ objectPrototypeKeys) (h : w.jobs id = some job) :
    taskResume w id none =
      { w with
        jobs := setProp w.jobs id { job with status := .complete, progress := 100 }
        published := w.published ++ [(id, evMerging), (id, evComplete id)]
        wire := w.wire ++ writesOf w (subscribers w id) evMerging
          ++ writesOf w (subscribers w id) (evComplete id) } := by
  unfold taskResume
  rw [setStatus_stored w id .merging job h]
  simp only [Outcome.andThen]
  rw [sendUpdate_ordinary _ id _ hk]
  simp only []
  rw [setStatus_stored _ id .complete { job with status := .merging } (setProp_same _ _ _)]
  simp only []
  rw [setProgress_stored _ id 100 { job with status := .complete } (setProp_same _ _ _)]
  simp only []
  rw [sendUpdate_ordinary _ id _ hk]
  simp only [setProp_setProp, List.append_assoc, List.cons_append, List.nil_append]
  rfl

theorem taskResume_stored_failure (w : World) (id : Str) (job : Job) (err : Str)
    (hk : id ∉ objectPrototypeKeys) (h : w.jobs id = some job) :
    taskResume w id (some err) =
      { w with
        jobs := setProp w.jobs id { job with status := .failed }
        published := w.published ++ [(id, evFailed)]
        wire := w.wire ++ writesOf w (subscribers w id) evFailed } := by
  unfold taskResume
  exact taskCatch_stored w id job hk h

/-! ## Normal forms of the handlers -/

theorem downloadStatus_thrown (w : World) (id : Str) (reply : Client)
    (h : w.clients id = none) (hk : id ∈ objectPrototypeKeys) :
    downloadStatus w id reply = ⟨w, some .typeError⟩ := by
  simp only [downloadStatus, registerClient, getProp_none_proto _ _ h hk, Outcome.andThen]

theorem downloadStatus_registers (w : World) (id : Str) (reply : Client)
    (h : w.clients id ≠ none ∨ id ∉ objectPrototypeKeys) :
    downloadStatus w id reply =
      ⟨{ w with
          clients := setProp w.clients id (subscribers w id ++ [reply])
          published := w.published ++ snapshotPublished w id
          wire := w.wire ++ snapshotWrites w id (subscribers w id ++ [reply]) }, none⟩ := by
  unfold downloadStatus registerClient snapshotWrites snapshotPublished subscribers
  cases hc : w.clients id with
  | none =>
    have hk : id ∉ objectPrototypeKeys := by
      rcases h with h | h
      · exact absurd hc h
      · exact h
    rw [getProp_none _ _ hc hk]
    simp only [Outcome.andThen, Option.getD_none, List.nil_append]
    cases hs : snapshotEvent (getProp w.jobs id) with
    | none => simp only [List.append_nil]
    | some ev =>
      simp only []
      rw [sendUpdate_registered _ id ev [reply] (setProp_same _ _ _)]
      rfl
  | some l =>
    rw [getProp_some _ _ l hc]
    simp only [Outcome.andThen, Option.getD_some]
    cases hs : snapshotEvent (getProp w.jobs id) with
    | none => simp only [List.append_nil]
    | some ev =>
      simp only []
      rw [sendUpdate_registered _ id ev (l ++ [reply]) (setProp_same _ _ _)]
      rfl

theorem closeHandler_registered (w : World) (id : Str) (reply : Client) (l : List Client)
    (h : w.clients id = some l) :
    closeHandler w id reply =
      ⟨{ w with
          clients :=
            if l.filter (fun c => c ≠ reply) = [] then deleteProp w.clients id
            else setProp w.clients id (l.filter fun c => c ≠ reply) }, none⟩ := by
  unfold closeHandler
  rw [getProp_some _ _ l h]
  by_cases hf : l.filter (fun c => c ≠ reply) = []
  · simp only [List.length_eq_zero, hf, if_true]
  · simp only [List.length_eq_zero, hf, if_false]

theorem closeHandler_unregistered (w : World) (id : Str) (reply : Client)
    (h : w.clients id = none) :
    (closeHandler w id reply).world = w := by
  unfold closeHandler getProp
  rw [h]
  by_cases hk : id ∈ objectPrototypeKeys
  · simp only [hk, if_true]
  · simp only [hk, if_false]

theorem downloadFile_world (w : World) (id : Str) : (downloadFile w id).2 = w := by
  unfold downloadFile
  split
  · split <;> rfl
  · rfl
  · rfl

theorem downloadAsync_cases (up : Nat → Str) (dirname : Str) (w : World) (req : AsyncRequest)
    (bytes : Bytes16) (spawnError : Option Str) :
    (downloadAsync up dirname w req bytes spawnError).2 = w ∨
      ∃ title,
        (downloadAsync up dirname w req bytes spawnError).2 =
          taskStart (createJob dirname w (hexEncode bytes.data) title)
            (hexEncode bytes.data) spawnError := by
  unfold downloadAsync
  split
  · exact Or.inl rfl
  · split
    · exact Or.inl rfl
    · rename_i title _
      exact Or.inr ⟨title, rfl⟩

/-! ## The invariant of reachable worlds -/

theorem mem_writesOf {w : World} {l : List Client} {data : Event} {x : Write}
    (h : x ∈ writesOf w l data) : x.client ∈ l ∧ x.data = data := by
  unfold writesOf at h
  rw [List.mem_map] at h
  obtain ⟨c, hc, rfl⟩ := h
  exact ⟨hc, rfl⟩

theorem mem_subscribers {w : World} {id : Str} {r : Client} (h : r ∈ subscribers w id) :
    ∃ l, w.clients id = some l ∧ r ∈ l := by
  unfold subscribers at h
  cases hc : w.clients id with
  | none => rw [hc] at h; simp at h
  | some l => rw [hc] at h; exact ⟨l, rfl, h⟩

theorem subscribers_of_some {w : World} {id : Str} {l : List Client}
    (h : w.clients id = some l) : subscribers w id = l := by
  unfold subscribers; rw [h]; rfl

theorem Inv.init : Inv World.init where
  keyLength := by intro id job h; cases h
  completeProgress := by intro id job h; cases h
  pendingStored := by intro id h; cases h
  registeredOld := by intro id l h; cases h
  wireOld := by intro x h; cases h
  oneId := by intro id id2 l l2 r h; cases h
  nodup := by intro id l h; cases h

/-- A step of a background task keeps the invariant: it rewrites one job stored under a
32-unit id, writes to connections registered under that id and may add the id to the
suspended tasks. -/
theorem Inv.of_task {w w2 : World} (hw : Inv w) (id : Str) (job2 : Job)
    (hlen : id.length = 32)
    (hprog : job2.status = .complete → job2.progress = 100)
    (hjobs : w2.jobs = setProp w.jobs id job2)
    (hclients : w2.clients = w.clients)
    (hnext : w2.nextReply = w.nextReply)
    (hwire : ∀ x ∈ w2.wire, x ∈ w.wire ∨ x.client ∈ subscribers w id)
    (hpend : ∀ k ∈ w2.pending, k ∈ w.pending ∨ k = id) : Inv w2 where
  keyLength := by
    intro k job h
    rw [hjobs] at h
    by_cases hk : k = id
    · rw [hk]; exact hlen
    · rw [setProp_other _ _ _ _ hk] at h; exact hw.keyLength k job h
  completeProgress := by
    intro k job h
    rw [hjobs] at h
    by_cases hk : k = id
    · rw [hk, setProp_same] at h
      cases h; exact hprog
    · rw [setProp_other _ _ _ _ hk] at h; exact hw.completeProgress k job h
  pendingStored := by
    intro k hk
    rw [hjobs]
    by_cases hki : k = id
    · exact ⟨job2, by rw [hki, setProp_same]⟩
    · rw [setProp_other _ _ _ _ hki]
      rcases hpend k hk with h | h
      · exact hw.pendingStored k h
      · exact absurd h hki
  registeredOld := by
    intro k l h r hr
    rw [hclients] at h; rw [hnext]
    exact hw.registeredOld k l h r hr
  wireOld := by
    intro x hx
    rw [hnext]
    rcases hwire x hx with h | h
    · exact hw.wireOld x h
    · obtain ⟨l, hl, hr⟩ := mem_subscribers h
      exact hw.registeredOld id l hl _ hr
  oneId := by
    intro k k2 l l2 r h h2
    rw [hclients] at h h2
    exact hw.oneId k k2 l l2 r h h2
  nodup := by
    intro k l h
    rw [hclients] at h
    exact hw.nodup k l h

theorem Inv.downloadAsync (up : Nat → Str) (dirname : Str) {w : World} (hw : Inv w)
    (req : AsyncRequest) (bytes : Bytes16) (spawnError : Option Str) :
    Inv (downloadAsync up dirname w req bytes spawnError).2 := by
  rcases downloadAsync_cases up dirname w req bytes spawnError with h | ⟨title, h⟩
  · rw [h]; exact hw
  · rw [h]
    have hlen := jobId_length bytes
    have hk := not_prototypeKey_of_length hlen
    have hst : (createJob dirname w (hexEncode bytes.data) title).jobs (hexEncode bytes.data)
        = some ⟨.starting, 0, outputPath dirname (hexEncode bytes.data) title, title⟩ :=
      setProp_same _ _ _
    cases spawnError with
    | none =>
      rw [taskStart_stored _ _ _ hk hst]
      refine Inv.of_task hw (hexEncode bytes.data)
        ⟨.downloading, 0, outputPath dirname (hexEncode bytes.data) title, title⟩ hlen
        (by intro h; cases h) ?_ rfl rfl ?_ ?_
      · exact setProp_setProp _ _ _ _
      · intro x hx
        rcases List.mem_append.mp hx with h1 | h1
        · exact Or.inl h1
        · exact Or.inr (mem_writesOf h1).1
      · intro k hk2
        rcases List.mem_append.mp hk2 with h1 | h1
        · exact Or.inl h1
        · exact Or.inr (List.mem_singleton.mp h1)
    | some err =>
      rw [taskStart_stored_spawnError _ _ _ err hk hst]
      refine Inv.of_task hw (hexEncode bytes.data)
        ⟨.failed, 0, outputPath dirname (hexEncode bytes.data) title, title⟩ hlen
        (by intro h; cases h) ?_ rfl rfl ?_ ?_
      · exact setProp_setProp _ _ _ _
      · intro x hx
        rcases List.mem_append.mp hx with h1 | h1
        · rcases List.mem_append.mp h1 with h2 | h2
          · exact Or.inl h2
          · exact Or.inr (mem_writesOf h2).1
        · exact Or.inr (mem_writesOf h1).1
      · intro k hk2
        exact Or.inl hk2

theorem Inv.toolExit {w : World} (hw : Inv w) (id : Str) (result : Option Str)
    (hp : id ∈ w.pending) :
    Inv (taskResume { w with pending := w.pending.erase id } id result) := by
  obtain ⟨job, hjob⟩ := hw.pendingStored id hp
  have hlen := hw.keyLength id job hjob
  have hk := not_prototypeKey_of_length hlen
  have hjob2 : ({ w with pending := w.pending.erase id } : World).jobs id = some job := hjob
  cases result with
  | none =>
    rw [taskResume_stored _ _ _ hk hjob2]
    refine Inv.of_task hw id { job with status := .complete, progress := 100 } hlen
      (fun _ => rfl) rfl rfl rfl ?_ ?_
    · intro x hx
      rcases List.mem_append.mp hx with h1 | h1
      · rcases List.mem_append.mp h1 with h2 | h2
        · exact Or.inl h2
        · exact Or.inr (mem_writesOf h2).1
      · exact Or.inr (mem_writesOf h1).1
    · intro k hk2
      exact Or.inl (List.mem_of_mem_erase hk2)
  | some err =>
    rw [taskResume_stored_failure _ _ _ err hk hjob2]
    refine Inv.of_task hw id { job with status := .failed } hlen
      (by intro h; cases h) rfl rfl rfl ?_ ?_
    · intro x hx
      rcases List.mem_append.mp hx with h1 | h1
      · exact Or.inl h1
      · exact Or.inr (mem_writesOf h1).1
    · intro k hk2
      exact Or.inl (List.mem_of_mem_erase hk2)

theorem Inv.nextReply_succ {w : World} (hw : Inv w) :
    Inv { w with nextReply := w.nextReply + 1 } where
  keyLength := hw.keyLength
  completeProgress := hw.completeProgress
  pendingStored := hw.pendingStored
  registeredOld := fun id l h r hr => Nat.lt_succ_of_lt (hw.registeredOld id l h r hr)
  wireOld := fun x hx => Nat.lt_succ_of_lt (hw.wireOld x hx)
  oneId := hw.oneId
  nodup := hw.nodup

theorem Inv.downloadStatus {w : World} (hw : Inv w) (id : Str) :
    Inv (downloadStatus { w with nextReply := w.nextReply + 1 } id w.nextReply).world := by
  by_cases h : w.clients id ≠ none ∨ id ∉ objectPrototypeKeys
  · rw [downloadStatus_registers { w with nextReply := w.nextReply + 1 } id w.nextReply h]
    have hsub : ∀ r ∈ subscribers w id ++ [w.nextReply], r < w.nextReply + 1 := by
      intro r hr
      rcases List.mem_append.mp hr with h1 | h1
      · obtain ⟨l, hl, hrl⟩ := mem_subscribers h1
        exact Nat.lt_succ_of_lt (hw.registeredOld id l hl r hrl)
      · rw [List.mem_singleton.mp h1]; exact Nat.lt_succ_self _
    refine ⟨hw.keyLength, hw.completeProgress, hw.pendingStored, ?_, ?_, ?_, ?_⟩
    · intro k l hl r hr
      by_cases hk : k = id
      · subst hk
        have hl2 : setProp w.clients k (subscribers w k ++ [w.nextReply]) k = some l := hl
        rw [setProp_same] at hl2
        cases hl2
        exact hsub r hr
      · have hl2 : setProp w.clients id (subscribers w id ++ [w.nextReply]) k = some l := hl
        rw [setProp_other _ _ _ _ hk] at hl2
        exact Nat.lt_succ_of_lt (hw.registeredOld k l hl2 r hr)
    · intro x hx
      rcases List.mem_append.mp hx with h1 | h1
      · exact Nat.lt_succ_of_lt (hw.wireOld x h1)
      · unfold snapshotWrites at h1
        split at h1
        · exact hsub _ (mem_writesOf h1).1
        · cases h1
    · intro k k2 l l2 r hl hl2 hr hr2
      have hl3 : setProp w.clients id (subscribers w id ++ [w.nextReply]) k = some l := hl
      have hl4 : setProp w.clients id (subscribers w id ++ [w.nextReply]) k2 = some l2 := hl2
      have key : ∀ (a b : Str) (la lb : List Client),
          setProp w.clients id (subscribers w id ++ [w.nextReply]) a = some la →
          setProp w.clients id (subscribers w id ++ [w.nextReply]) b = some lb →
          r ∈ la → r ∈ lb → a = id → a = b := by
        intro a b la lb ha hb hra hrb hai
        by_contra hab
        have hbi : b ≠ id := fun hbi => hab (hai.trans hbi.symm)
        rw [hai, setProp_same] at ha
        rw [setProp_other _ _ _ _ hbi] at hb
        cases ha
        have hrlt := hw.registeredOld b lb hb r hrb
        rcases List.mem_append.mp hra with h1 | h1
        · obtain ⟨l0, hl0, hrl0⟩ := mem_subscribers h1
          exact hbi (hw.oneId id b l0 lb r hl0 hb hrl0 hrb).symm
        · rw [List.mem_singleton.mp h1] at hrlt
          exact Nat.lt_irrefl _ hrlt
      by_cases hk : k = id
      · exact key k k2 l l2 hl3 hl4 hr hr2 hk
      · by_cases hk2 : k2 = id
        · exact (key k2 k l2 l hl4 hl3 hr2 hr hk2).symm
        · rw [setProp_other _ _ _ _ hk] at hl3
          rw [setProp_other _ _ _ _ hk2] at hl4
          exact hw.oneId k k2 l l2 r hl3 hl4 hr hr2
    · intro k l hl
      have hl2 : setProp w.clients id (subscribers w id ++ [w.nextReply]) k = some l := hl
      by_cases hk : k = id
      · rw [hk, setProp_same] at hl2
        cases hl2
        rw [List.nodup_append]
        refine ⟨?_, List.nodup_singleton _, ?_⟩
        · unfold subscribers
          cases hc : w.clients id with
          | none => exact List.nodup_nil
          | some l0 => exact hw.nodup id l0 hc
        · intro a ha hb
          rw [List.mem_singleton] at hb
          obtain ⟨l0, hl0, hrl0⟩ := mem_subscribers ha
          have := hw.registeredOld id l0 hl0 a hrl0
          rw [hb] at this
          exact Nat.lt_irrefl _ this
      · rw [setProp_other _ _ _ _ hk] at hl2
        exact hw.nodup k l hl2
  · have h1 : w.clients id = none := by
      by_contra hc; exact h (Or.inl hc)
    have h2 : id ∈ objectPrototypeKeys := by
      by_contra hc; exact h (Or.inr hc)
    rw [downloadStatus_thrown { w with nextReply := w.nextReply + 1 } id w.nextReply h1 h2]
    exact hw.nextReply_succ

/-- The `close` listener only removes connections: every list of the new registry is a
sublist of the list under the same id before. -/
theorem closeHandler_shrinks (w : World) (id : Str) (reply : Client) (k : Str)
    (l2 : List Client) (h : (closeHandler w id reply).world.clients k = some l2) :
    ∃ l0, w.clients k = some l0 ∧ l2.Sublist l0 := by
  cases hc : w.clients id with
  | none =>
    rw [closeHandler_unregistered w id reply hc] at h
    exact ⟨l2, h, List.Sublist.refl _⟩
  | some l =>
    rw [closeHandler_registered w id reply l hc] at h
    have h2 : (if l.filter (fun c => c ≠ reply) = [] then deleteProp w.clients id
          else setProp w.clients id (l.filter fun c => c ≠ reply)) k = some l2 := h
    by_cases hk : k = id
    · subst hk
      split at h2
      · simp [deleteProp] at h2
      · rw [setProp_same] at h2
        cases h2
        exact ⟨l, hc, List.filter_sublist l⟩
    · split at h2
      · simp only [deleteProp, hk, if_false] at h2
        exact ⟨l2, h2, List.Sublist.refl _⟩
      · rw [setProp_other _ _ _ _ hk] at h2
        exact ⟨l2, h2, List.Sublist.refl _⟩

theorem closeHandler_frame (w : World) (id : Str) (reply : Client) :
    (closeHandler w id reply).world.jobs = w.jobs ∧
    (closeHandler w id reply).world.pending = w.pending ∧
    (closeHandler w id reply).world.nextReply = w.nextReply ∧
    (closeHandler w id reply).world.wire = w.wire ∧
    (closeHandler w id reply).world.dead = w.dead ∧
    (closeHandler w id reply).world.published = w.published := by
  cases hc : w.clients id with
  | none => rw [closeHandler_unregistered w id reply hc]; exact ⟨rfl, rfl, rfl, rfl, rfl, rfl⟩
  | some l => rw [closeHandler_registered w id reply l hc]; exact ⟨rfl, rfl, rfl, rfl, rfl, rfl⟩

theorem Inv.close {w : World} (hw : Inv w) (id : Str) (reply : Client) :
    Inv (closeHandler w id reply).world := by
  obtain ⟨hj, hp, hn, hwire, _, _⟩ := closeHandler_frame w id reply
  refine ⟨?_, ?_, ?_, ?_, ?_, ?_, ?_⟩
  · rw [hj]; exact hw.keyLength
  · rw [hj]; exact hw.completeProgress
  · rw [hj, hp]; exact hw.pendingStored
  · intro k l2 h r hr
    obtain ⟨l0, hl0, hsub⟩ := closeHandler_shrinks w id reply k l2 h
    rw [hn]
    exact hw.registeredOld k l0 hl0 r (hsub.subset hr)
  · rw [hwire, hn]; exact hw.wireOld
  · intro k k2 l2 l3 r h h2 hr hr2
    obtain ⟨l0, hl0, hsub⟩ := closeHandler_shrinks w id reply k l2 h
    obtain ⟨l1, hl1, hsub1⟩ := closeHandler_shrinks w id reply k2 l3 h2
    exact hw.oneId k k2 l0 l1 r hl0 hl1 (hsub.subset hr) (hsub1.subset hr2)
  · intro k l2 h
    obtain ⟨l0, hl0, hsub⟩ := closeHandler_shrinks w id reply k l2 h
    exact (hw.nodup k l0 hl0).sublist hsub

theorem Inv.step (up : Nat → Str) (dirname : Str) {w : World} (hw : Inv w) (a : Action) :
    Inv (step up dirname w a) := by
  cases a with
  | downloadAsync req bytes spawnError => exact hw.downloadAsync up dirname req bytes spawnError
  | toolExit jobId result =>
    show Inv (if jobId ∈ w.pending then
      taskResume { w with pending := w.pending.erase jobId } jobId result else w)
    split
    · rename_i hp; exact hw.toolExit jobId result hp
    · exact hw
  | downloadStatus id => exact hw.downloadStatus id
  | close id reply => exact hw.close id reply
  | downloadFile id =>
    show Inv (downloadFile w id).2
    rw [downloadFile_world]; exact hw
  | socketDies reply =>
    exact ⟨hw.keyLength, hw.completeProgress, hw.pendingStored, hw.registeredOld, hw.wireOld,
      hw.oneId, hw.nodup⟩

theorem Inv.run (up : Nat → Str) (dirname : Str) (actions : List Action) :
    ∀ {w : World}, Inv w → Inv (run up dirname w actions) := by
  induction actions with
  | nil => intro w hw; exact hw
  | cons a rest ih => intro w hw; exact ih (hw.step up dirname a)

theorem Inv.of_reachable {up : Nat → Str} {dirname : Str} {w : World}
    (h : Reachable up dirname w) : Inv w := by
  obtain ⟨actions, rfl⟩ := h
  exact Inv.run up dirname actions Inv.init

/-! ## Claims about single handlers -/

theorem downloadAsync_title (up : Nat → Str) (dirname : Str) (w : World) (req : AsyncRequest)
    (bytes : Bytes16) (spawnError : Option Str) (s : Str)
    (hurl : req.url.truthy = true) (hfmt : req.format.truthy = true)
    (hs : sanitizedTitle up req.title = .ok s) :
    ((downloadAsync up dirname w req bytes spawnError).2.jobs (hexEncode bytes.data)).map
      (fun job => job.title) = some s := by
  have hk := not_prototypeKey_of_length (jobId_length bytes)
  have hst : (createJob dirname w (hexEncode bytes.data) s).jobs (hexEncode bytes.data)
      = some ⟨.starting, 0, outputPath dirname (hexEncode bytes.data) s, s⟩ :=
    setProp_same _ _ _
  unfold downloadAsync
  simp only [hurl, hfmt, Bool.not_true, Bool.or_self, Bool.false_eq_true, if_false, hs]
  cases spawnError with
  | none => rw [taskStart_stored _ _ _ hk hst]; simp only [setProp_same, Option.map_some']
  | some err =>
    rw [taskStart_stored_spawnError _ _ _ err hk hst]
    simp only [setProp_same, Option.map_some']

/-- C1: the title sanitiser of `/download-sync` and `/download-async` equals the
reference definition of the spec.  For a non-empty title `t` the result has the length of
`t` and holds at each position the original unit when it is in `[A-Za-z0-9_.-]` and `_`
otherwise; an absent or empty title gives `video`; `My Video! 2024` gives `My_Video__2024`;
and both handlers put the sanitised title into the file name they report or store. -/
theorem sanitizedTitle_matches_reference (unicodeUpper : Nat → Str) (t : Str) (ht : t ≠ []) :
    (∃ s, sanitizedTitle unicodeUpper (.str t) = .ok s ∧ s = specSanitize (some t) ∧
      s.length = t.length ∧
      ∀ i : Nat, s[i]? = (t[i]?).map fun ch => if specAllowed ch then ch else 95) ∧
    sanitizedTitle unicodeUpper .absent = .ok (utf16 "video") ∧
    sanitizedTitle unicodeUpper (.str []) = .ok (utf16 "video") ∧
    specSanitize none = utf16 "video" ∧ specSanitize (some []) = utf16 "video" ∧
    sanitizedTitle unicodeUpper (.str (utf16 "My Video! 2024")) = .ok (utf16 "My_Video__2024") ∧
    (∀ (title : Field) (s : Str) (url format : Field),
      sanitizedTitle unicodeUpper title = .ok s → url.truthy = true → format.truthy = true →
      downloadSync unicodeUpper ⟨url, format, title⟩ none
        = .toolStream (contentDisposition s) (utf16 "video/mp4") ∧
      ∀ (dirname : Str) (w : World) (bytes : Bytes16) (spawnError : Option Str),
        ((downloadAsync unicodeUpper dirname w ⟨url, format, title⟩ bytes spawnError).2.jobs
          (hexEncode bytes.data)).map (fun job => job.title) = some s) := by
  refine ⟨⟨specSanitize (some t), sanitizedTitle_str _ t, rfl, ?_, ?_⟩, ?_, ?_, rfl, rfl, ?_, ?_⟩
  · cases t with
    | nil => exact absurd rfl ht
    | cons c r => simp only [specSanitize, List.length_map]
  · intro i
    cases t with
    | nil => exact absurd rfl ht
    | cons c r => simp only [specSanitize, List.getElem?_map]
  · rw [sanitizedTitle_absent]; rfl
  · rw [sanitizedTitle_str]; rfl
  · rw [sanitizedTitle_str]; exact congrArg Except.ok (by decide)
  · intro title s url format hs hurl hfmt
    constructor
    · simp only [downloadSync, hurl, hfmt, Bool.not_true, Bool.or_self, Bool.false_eq_true,
        if_false, hs]
    · intro dirname w bytes spawnError
      exact downloadAsync_title unicodeUpper dirname w ⟨url, format, title⟩ bytes spawnError s
        hurl hfmt hs

/-- Witness of C1 on a title with a long s, a Kelvin sign, a space and a letter: only the
letter is kept. -/
theorem sanitizedTitle_matches_reference_witness :
    [383, 8490, 32, 97] ≠ ([] : Str) ∧
    sanitizedTitle sampleUpper (.str [383, 8490, 32, 97]) = .ok [95, 95, 95, 97] :=
  ⟨by decide, by
    obtain ⟨s, h1, h2, _⟩ :=
      (sanitizedTitle_matches_reference sampleUpper [383, 8490, 32, 97] (by decide)).1
    rw [h1, h2]; exact congrArg Except.ok (by decide)⟩

/-! ## Writes seen by one connection -/

theorem filter_writesOf (w : World) (l : List Client) (data : Event) (r : Client) :
    ((writesOf w l data).filter fun x => x.client = r).map (fun x => x.data)
      = (l.filter fun c => c = r).map fun _ => data := by
  unfold writesOf
  induction l with
  | nil => rfl
  | cons c rest ih =>
    by_cases hc : c = r
    · simp only [List.map_cons, List.filter_cons, hc, decide_True, if_true] at ih ⊢
      rw [ih]
    · simp only [List.map_cons, List.filter_cons, hc, decide_False] at ih ⊢
      simpa using ih

theorem filter_writesOf_absent (w : World) (l : List Client) (data : Event) (r : Client)
    (h : r ∉ l) :
    ((writesOf w l data).filter fun x => x.client = r).map (fun x => x.data) = [] := by
  rw [filter_writesOf]
  have : l.filter (fun c => c = r) = [] := by
    rw [List.filter_eq_nil_iff]
    intro c hc
    simp only [decide_eq_true_eq]
    intro hcr
    exact h (hcr ▸ hc)
  rw [this]; rfl

theorem eventsTo_append (w w2 : World) (extra : List Write) (r : Client)
    (h : w2.wire = w.wire ++ extra) :
    eventsTo w2 r = eventsTo w r ++ (extra.filter fun x => x.client = r).map fun x => x.data := by
  unfold eventsTo
  rw [h, List.filter_append, List.map_append]

theorem eventsTo_eq_of_wire (w w2 : World) (r : Client) (h : w2.wire = w.wire) :
    eventsTo w2 r = eventsTo w r := by
  unfold eventsTo; rw [h]

theorem eventsTo_new (w : World) (r : Client) (h : ∀ x ∈ w.wire, x.client < r) :
    eventsTo w r = [] := by
  unfold eventsTo
  have : w.wire.filter (fun x => x.client = r) = [] := by
    rw [List.filter_eq_nil_iff]
    intro x hx
    simp only [decide_eq_true_eq]
    intro hxr
    exact Nat.ne_of_lt (h x hx) hxr
  rw [this]; rfl

/-! ## Claims about `sendUpdate` and job creation -/

/-- C7, as amended: when the socket of a registered connection `si` no longer takes data,
`sendUpdate` does not throw, it still makes one write per registered connection, in order,
and every connection with a live socket gets the event; the registry is left as it was, so
`si` stays registered. -/
theorem sendUpdate_with_dead_socket (w : World) (id : Str) (data : Event) (l : List Client)
    (si : Client) (hl : w.clients id = some l) (hsi : si ∈ l) (hdead : si ∈ w.dead) :
    (sendUpdate w id data).thrown = none ∧
    (sendUpdate w id data).world.wire
      = w.wire ++ l.map (fun c => ⟨c, data, !(w.dead.contains c)⟩) ∧
    (∀ sj ∈ l, sj ∉ w.dead →
      (⟨sj, data, true⟩ : Write) ∈ l.map (fun c => ⟨c, data, !(w.dead.contains c)⟩)) ∧
    (⟨si, data, false⟩ : Write) ∈ l.map (fun c => ⟨c, data, !(w.dead.contains c)⟩) ∧
    (sendUpdate w id data).world.clients = w.clients ∧
    (sendUpdate w id data).world.jobs = w.jobs ∧
    si ∈ subscribers (sendUpdate w id data).world id := by
  rw [sendUpdate_registered w id data l hl]
  refine ⟨rfl, rfl, ?_, ?_, rfl, rfl, ?_⟩
  · intro sj hsj hlive
    rw [List.mem_map]
    refine ⟨sj, hsj, ?_⟩
    have : w.dead.contains sj = false := by
      rw [Bool.eq_false_iff]
      intro hc
      exact hlive (by simpa using hc)
    rw [this]; rfl
  · rw [List.mem_map]
    refine ⟨si, hsi, ?_⟩
    have : w.dead.contains si = true := by simpa using hdead
    rw [this]; rfl
  · unfold subscribers
    show si ∈ (w.clients id).getD []
    rw [hl]; exact hsi

/-- Witness of the amended C7 on two connections, the first with a dead socket. -/
theorem sendUpdate_with_dead_socket_witness :
    (sendUpdate twoClients zeroId evMerging).thrown = none ∧
    (sendUpdate twoClients zeroId evMerging).world.wire
      = [⟨0, evMerging, false⟩, ⟨1, evMerging, true⟩] :=
  have h := sendUpdate_with_dead_socket twoClients zeroId evMerging [0, 1] 0
    (by decide) (by decide) (by decide)
  ⟨h.1, h.2.1⟩

/-- Counterexample to C7 as stated: the write to connection 0 fails, and after `sendUpdate`
connection 0 is still registered under the id. -/
theorem sendUpdate_keeps_failed_subscriber :
    twoClients.clients zeroId = some [0, 1] ∧ 0 ∈ twoClients.dead ∧
    (⟨0, evMerging, false⟩ : Write) ∈ (sendUpdate twoClients zeroId evMerging).world.wire ∧
    ¬ (0 ∉ subscribers (sendUpdate twoClients zeroId evMerging).world zeroId) := by
  decide

theorem hexDigit_isHex : ∀ n, n < 16 → isHexDigit (hexDigit n) = true := by decide

theorem hexEncode_isHex (l : List Nat) (h : ∀ b ∈ l, b < 256) :
    ∀ ch ∈ hexEncode l, isHexDigit ch = true := by
  intro ch hch
  unfold hexEncode at hch
  rw [List.mem_flatMap] at hch
  obtain ⟨b, hb, hmem⟩ := hch
  have hb2 := h b hb
  simp only [List.mem_cons, List.mem_singleton, List.not_mem_nil, or_false] at hmem
  rcases hmem with rfl | rfl
  · exact hexDigit_isHex _ (by omega)
  · exact hexDigit_isHex _ (Nat.mod_lt _ (by decide))

/-- C8, as amended: for every job store, job creation stores a job with status `starting`
and progress 0 under the id drawn from the random bytes, which has 32 hexadecimal digits;
the jobs under all other ids and the registry are not touched; the handler of an accepted
request runs exactly this creation, answers with the id and starts the background task.
When the id is not yet a key of the store, every job already stored is left unchanged; when
it is, the job stored under it is replaced. -/
theorem createJob_inserts (dirname : Str) (w : World) (bytes : Bytes16) (title : Str) :
    (createJob dirname w (hexEncode bytes.data) title).jobs (hexEncode bytes.data)
      = some ⟨.starting, 0, outputPath dirname (hexEncode bytes.data) title, title⟩ ∧
    (hexEncode bytes.data).length = 32 ∧
    (∀ ch ∈ hexEncode bytes.data, isHexDigit ch = true) ∧
    (∀ k, k ≠ hexEncode bytes.data →
      (createJob dirname w (hexEncode bytes.data) title).jobs k = w.jobs k) ∧
    (createJob dirname w (hexEncode bytes.data) title).clients = w.clients ∧
    (∀ (up : Nat → Str) (req : AsyncRequest) (spawnError : Option Str),
      req.url.truthy = true → req.format.truthy = true →
      sanitizedTitle up req.title = .ok title →
      downloadAsync up dirname w req bytes spawnError =
        (.jobId (hexEncode bytes.data),
          taskStart (createJob dirname w (hexEncode bytes.data) title)
            (hexEncode bytes.data) spawnError)) ∧
    (w.jobs (hexEncode bytes.data) = none →
      ∀ k job, w.jobs k = some job →
        (createJob dirname w (hexEncode bytes.data) title).jobs k = some job) := by
  refine ⟨setProp_same _ _ _, jobId_length bytes, hexEncode_isHex _ bytes.byte, ?_, rfl, ?_, ?_⟩
  · intro k hne
    exact setProp_other _ _ _ _ hne
  · intro up req spawnError hurl hfmt hs
    simp only [downloadAsync, hurl, hfmt, Bool.not_true, Bool.or_self, Bool.false_eq_true,
      if_false, hs]
  · intro hfresh k job hk
    have hne : k ≠ hexEncode bytes.data := by
      intro he; rw [he, hfresh] at hk; cases hk
    show setProp w.jobs _ _ k = some job
    rw [setProp_other _ _ _ _ hne]; exact hk

set_option maxRecDepth 100000 in
/-- Witness of the amended C8: a second job, drawn with other bytes, next to a finished one,
which is left as it was. -/
theorem createJob_inserts_witness :
    doneWorld.jobs (hexEncode otherBytes.data) = none ∧
    (createJob sampleDir doneWorld (hexEncode otherBytes.data) (utf16 "b")).jobs zeroId
      = some ⟨.complete, 100,
          utf16 "/srv/app/downloads/00000000000000000000000000000000_My_Video__2024.mp4",
          utf16 "My_Video__2024"⟩ :=
  ⟨by decide,
    (createJob_inserts sampleDir doneWorld otherBytes (utf16 "b")).2.2.2.2.2.2 (by decide)
      zeroId _ (by decide)⟩

set_option maxRecDepth 100000 in
/-- Counterexample to C8 as stated: the store holds a finished job under the id of sixteen
zero bytes; when the random source returns sixteen zero bytes again, creation stores the new
job under the same key and the finished job is gone. -/
theorem createJob_overwrites_on_collision :
    (doneWorld.jobs (hexEncode zeroBytes.data)).map (fun job => job.status) = some .complete ∧
    ((createJob sampleDir doneWorld (hexEncode zeroBytes.data) (utf16 "b")).jobs
      (hexEncode zeroBytes.data)).map (fun job => job.status) = some .starting ∧
    ((downloadAsync sampleUpper sampleDir doneWorld sampleRequest zeroBytes none).2.jobs
      (hexEncode zeroBytes.data)).map (fun job => (job.status, job.progress))
      = some (.downloading, 0) := by
  decide

/-! ## The status handler -/

/-- The status handler on an id that is no member name of `Object.prototype` or that already
has an entry: the new connection is appended, the other entries are untouched, and when a job
is stored under the id one snapshot is written to every connection of the id, the earlier
ones included; without a job nothing is written. -/
theorem downloadStatus_ordinary (w : World) (id : Str) (reply : Client)
    (h : w.clients id ≠ none ∨ id ∉ objectPrototypeKeys) :
    (downloadStatus w id reply).thrown = none ∧
    (downloadStatus w id reply).world.clients id = some (subscribers w id ++ [reply]) ∧
    (∀ k, k ≠ id → (downloadStatus w id reply).world.clients k = w.clients k) ∧
    (∀ job, w.jobs id = some job →
      (downloadStatus w id reply).world.wire = w.wire ++
        (subscribers w id ++ [reply]).map fun c =>
          ⟨c, ⟨some job.status, some job.progress,
            utf16 "Reconnected. Current status: " ++ job.status.toStr, none⟩,
            !(w.dead.contains c)⟩) ∧
    (w.jobs id = none → id ∉ objectPrototypeKeys →
      (downloadStatus w id reply).world.wire = w.wire) := by
  rw [downloadStatus_registers w id reply h]
  refine ⟨rfl, setProp_same _ _ _, fun k hk => setProp_other _ _ _ _ hk, ?_, ?_⟩
  · intro job hj
    simp only [snapshotWrites, getProp_some _ _ _ hj, snapshotEvent, writesOf]
  · intro hj hk
    simp only [snapshotWrites, getProp_none _ _ hj hk, snapshotEvent, List.append_nil]

/-- C10, the failing input: on a fresh server the request `GET /download-status/constructor`
names no stored job, yet the handler throws a `TypeError` at `clients[id].push(reply)` and
the connection is not registered. -/
theorem downloadStatus_constructor_throws :
    World.init.jobs (utf16 "constructor") = none ∧
    (downloadStatus World.init (utf16 "constructor") 0).thrown = some .typeError ∧
    subscribers (downloadStatus World.init (utf16 "constructor") 0).world (utf16 "constructor")
      = [] ∧
    (step sampleUpper sampleDir World.init (.downloadStatus (utf16 "constructor"))).clients
      (utf16 "constructor") = none := by
  decide

/-! ## Pieces of the background task -/

theorem downloadAsync_taskStep (up : Nat → Str) (dirname : Str) (w : World)
    (req : AsyncRequest) (bytes : Bytes16) (title : Str)
    (hurl : req.url.truthy = true) (hfmt : req.format.truthy = true)
    (hs : sanitizedTitle up req.title = .ok title) :
    (TaskStep w (downloadAsync up dirname w req bytes none).2 (hexEncode bytes.data)
        ⟨.downloading, 0, outputPath dirname (hexEncode bytes.data) title, title⟩
        [evDownloading] ∧
      (downloadAsync up dirname w req bytes none).2.pending
        = w.pending ++ [hexEncode bytes.data]) ∧
    ∀ err, TaskStep w (downloadAsync up dirname w req bytes (some err)).2 (hexEncode bytes.data)
        ⟨.failed, 0, outputPath dirname (hexEncode bytes.data) title, title⟩
        [evDownloading, evFailed] ∧
      (downloadAsync up dirname w req bytes (some err)).2.pending = w.pending := by
  have hk := not_prototypeKey_of_length (jobId_length bytes)
  have hst : (createJob dirname w (hexEncode bytes.data) title).jobs (hexEncode bytes.data)
      = some ⟨.starting, 0, outputPath dirname (hexEncode bytes.data) title, title⟩ :=
    setProp_same _ _ _
  have hform : ∀ spawnError, (downloadAsync up dirname w req bytes spawnError).2 =
      taskStart (createJob dirname w (hexEncode bytes.data) title)
        (hexEncode bytes.data) spawnError := by
    intro spawnError
    simp only [downloadAsync, hurl, hfmt, Bool.not_true, Bool.or_self, Bool.false_eq_true,
      if_false, hs]
  refine ⟨?_, ?_⟩
  · rw [hform none, taskStart_stored _ _ _ hk hst]
    refine ⟨⟨setProp_setProp _ _ _ _, rfl, rfl, rfl, ?_, rfl⟩, rfl⟩
    simp only [List.flatMap_cons, List.flatMap_nil, List.append_nil]
    rfl
  · intro err
    rw [hform (some err), taskStart_stored_spawnError _ _ _ err hk hst]
    refine ⟨⟨setProp_setProp _ _ _ _, rfl, rfl, rfl, ?_, rfl⟩, rfl⟩
    simp only [List.flatMap_cons, List.flatMap_nil, List.append_nil, List.append_assoc]
    rfl

theorem toolExit_taskStep (up : Nat → Str) (dirname : Str) {w : World} (hw : Inv w) (id : Str)
    (hp : id ∈ w.pending) :
    ∃ job, w.jobs id = some job ∧
      (TaskStep w (step up dirname w (.toolExit id none)) id
          { job with status := .complete, progress := 100 } [evMerging, evComplete id] ∧
        (step up dirname w (.toolExit id none)).pending = w.pending.erase id) ∧
      ∀ err, TaskStep w (step up dirname w (.toolExit id (some err))) id
          { job with status := .failed } [evFailed] ∧
        (step up dirname w (.toolExit id (some err))).pending = w.pending.erase id := by
  obtain ⟨job, hjob⟩ := hw.pendingStored id hp
  have hk := not_prototypeKey_of_length (hw.keyLength id job hjob)
  have hjob2 : ({ w with pending := w.pending.erase id } : World).jobs id = some job := hjob
  have hform : ∀ result, step up dirname w (.toolExit id result) =
      taskResume { w with pending := w.pending.erase id } id result := by
    intro result
    show (if id ∈ w.pending then
      taskResume { w with pending := w.pending.erase id } id result else w) = _
    rw [if_pos hp]
  refine ⟨job, hjob, ?_, ?_⟩
  · rw [hform none, taskResume_stored _ _ _ hk hjob2]
    refine ⟨⟨rfl, rfl, rfl, rfl, ?_, rfl⟩, rfl⟩
    simp only [List.flatMap_cons, List.flatMap_nil, List.append_nil, List.append_assoc]
    rfl
  · intro err
    rw [hform (some err), taskResume_stored_failure _ _ _ err hk hjob2]
    refine ⟨⟨rfl, rfl, rfl, rfl, ?_, rfl⟩, rfl⟩
    simp only [List.flatMap_cons, List.flatMap_nil, List.append_nil]
    rfl

theorem filter_eq_singleton {l : List Client} (hn : l.Nodup) {r : Client} (hr : r ∈ l) :
    l.filter (fun c => c = r) = [r] := by
  induction l with
  | nil => cases hr
  | cons c rest ih =>
    rw [List.nodup_cons] at hn
    by_cases hc : c = r
    · subst hc
      have : rest.filter (fun x => x = c) = [] := by
        rw [List.filter_eq_nil_iff]
        intro x hx
        simp only [decide_eq_true_eq]
        intro hxc
        exact hn.1 (hxc ▸ hx)
      simp only [List.filter_cons, decide_True, if_true, this]
    · have hr2 : r ∈ rest := by
        rcases List.mem_cons.mp hr with h | h
        · exact absurd h.symm hc
        · exact h
      simp only [List.filter_cons, hc, decide_False]
      exact ih hn.2 hr2

/-- Events that one piece of the background task writes to one connection: all of them, in
order, when the connection is registered under the id of the job, none otherwise. -/
theorem TaskStep.eventsTo {w w2 : World} {id : Str} {job2 : Job} {evs : List Event}
    (hw : Inv w) (h : TaskStep w w2 id job2 evs) (r : Client) :
    eventsTo w2 r = eventsTo w r ++ (if r ∈ subscribers w id then evs else []) := by
  rw [eventsTo_append w w2 _ r h.wire]
  congr 1
  have key : ∀ es : List Event,
      ((es.flatMap fun e => writesOf w (subscribers w id) e).filter
        fun x => x.client = r).map (fun x => x.data)
      = es.flatMap fun e => ((subscribers w id).filter fun c => c = r).map fun _ => e := by
    intro es
    induction es with
    | nil => rfl
    | cons e rest ih =>
      simp only [List.flatMap_cons, List.filter_append, List.map_append, ih, filter_writesOf]
  rw [key]
  by_cases hr : r ∈ subscribers w id
  · rw [if_pos hr]
    obtain ⟨l, hl, hrl⟩ := mem_subscribers hr
    rw [subscribers_of_some hl, filter_eq_singleton (hw.nodup id l hl) hrl]
    clear h key
    induction evs with
    | nil => rfl
    | cons e rest ih => simp only [List.flatMap_cons, List.map_cons, List.map_nil,
        List.singleton_append] at ih ⊢; rw [ih]
  · rw [if_neg hr]
    have : (subscribers w id).filter (fun c => c = r) = [] := by
      rw [List.filter_eq_nil_iff]
      intro c hc
      simp only [decide_eq_true_eq]
      intro hcr
      exact hr (hcr ▸ hc)
    rw [this]
    clear h key
    induction evs with
    | nil => rfl
    | cons e rest ih => simp only [List.flatMap_cons, List.map_nil, List.nil_append] at ih ⊢; exact ih

/-- C3: the events published by the background task of one job.  From the start of the task
to its suspension exactly `downloading` with progress 0 is published; when the tool succeeds
the task, resumed once, then publishes exactly `merging` with progress 50 and `complete`
with progress 100 and the file reference `/download-file/<jobId>`; when the tool fails, be it
by an error thrown at the spawn or by a rejection later, exactly one `failed` event follows
`downloading`, and that event is the same for every error. -/
theorem backgroundTask_published (unicodeUpper : Nat → Str) (dirname : Str) (w : World)
    (hw : Reachable unicodeUpper dirname w) :
    (∀ (req : AsyncRequest) (bytes : Bytes16), Accepted unicodeUpper req →
      ((step unicodeUpper dirname w (.downloadAsync req bytes none)).published =
          w.published ++
            [(hexEncode bytes.data,
              ⟨some .downloading, some 0, utf16 "Starting download...", none⟩)] ∧
        (step unicodeUpper dirname w (.downloadAsync req bytes none)).pending =
          w.pending ++ [hexEncode bytes.data]) ∧
      ∀ err : Str,
        (step unicodeUpper dirname w (.downloadAsync req bytes (some err))).published =
          w.published ++
            [(hexEncode bytes.data,
              ⟨some .downloading, some 0, utf16 "Starting download...", none⟩),
             (hexEncode bytes.data,
              ⟨some .failed, none, utf16 "An error occurred during download.", none⟩)] ∧
        (step unicodeUpper dirname w (.downloadAsync req bytes (some err))).pending =
          w.pending) ∧
    (∀ jobId ∈ w.pending,
      ((step unicodeUpper dirname w (.toolExit jobId none)).published =
          w.published ++
            [(jobId, ⟨some .merging, some 50, utf16 "Merging formats...", none⟩),
             (jobId, ⟨some .complete, some 100, utf16 "Download complete!",
                some (utf16 "/download-file/" ++ jobId)⟩)] ∧
        (step unicodeUpper dirname w (.toolExit jobId none)).pending =
          w.pending.erase jobId) ∧
      ∀ err : Str,
        (step unicodeUpper dirname w (.toolExit jobId (some err))).published =
          w.published ++
            [(jobId,
              ⟨some .failed, none, utf16 "An error occurred during download.", none⟩)] ∧
        (step unicodeUpper dirname w (.toolExit jobId (some err))).pending =
          w.pending.erase jobId) := by
  have hinv := Inv.of_reachable hw
  constructor
  · rintro req bytes ⟨hurl, hfmt, title, hs⟩
    obtain ⟨⟨h1, hp⟩, h2⟩ :=
      downloadAsync_taskStep unicodeUpper dirname w req bytes title hurl hfmt hs
    exact ⟨⟨h1.published, hp⟩, fun err => ⟨(h2 err).1.published, (h2 err).2⟩⟩
  · intro jobId hp
    obtain ⟨job, _, ⟨h1, hp1⟩, h2⟩ := toolExit_taskStep unicodeUpper dirname hinv jobId hp
    exact ⟨⟨h1.published, hp1⟩, fun err => ⟨(h2 err).1.published, (h2 err).2⟩⟩

set_option maxRecDepth 100000 in
/-- Witness of C3: the task of `busyWorld` is resumed after the tool succeeded. -/
theorem backgroundTask_published_witness :
    Reachable sampleUpper sampleDir busyWorld ∧
    (step sampleUpper sampleDir busyWorld (.toolExit zeroId none)).published =
      busyWorld.published ++
        [(zeroId, ⟨some .merging, some 50, utf16 "Merging formats...", none⟩),
         (zeroId, ⟨some .complete, some 100, utf16 "Download complete!",
            some (utf16 "/download-file/00000000000000000000000000000000")⟩)] :=
  ⟨⟨_, rfl⟩,
    ((backgroundTask_published sampleUpper sampleDir busyWorld ⟨_, rfl⟩).2 zeroId
      (by decide)).1.1⟩

/-! ## Snapshots and unsubscription -/

theorem downloadStatus_eventsTo {w : World} (hw : Inv w) (id : Str) (r : Client)
    (h : w.clients id ≠ none ∨ id ∉ objectPrototypeKeys) :
    eventsTo (downloadStatus { w with nextReply := w.nextReply + 1 } id w.nextReply).world r =
      eventsTo w r ++
        (if r ∈ subscribers w id ++ [w.nextReply] then
          (snapshotEvent (getProp w.jobs id)).toList else []) := by
  have hnd : (subscribers w id ++ [w.nextReply]).Nodup := by
    have h2 := (hw.downloadStatus id).nodup id (subscribers w id ++ [w.nextReply])
    rw [downloadStatus_registers { w with nextReply := w.nextReply + 1 } id w.nextReply h] at h2
    exact h2 (setProp_same _ _ _)
  rw [downloadStatus_registers { w with nextReply := w.nextReply + 1 } id w.nextReply h]
  rw [eventsTo_append w _ (snapshotWrites { w with nextReply := w.nextReply + 1 } id
    (subscribers w id ++ [w.nextReply])) r rfl]
  congr 1
  unfold snapshotWrites
  show (List.filter (fun x => decide (x.client = r))
      (match snapshotEvent (getProp w.jobs id) with
      | some ev => writesOf _ (subscribers w id ++ [w.nextReply]) ev
      | none => [])).map (fun x => x.data) = _
  cases snapshotEvent (getProp w.jobs id) with
  | none => simp only [List.filter_nil, List.map_nil, Option.toList, ite_self]
  | some ev =>
    simp only [Option.toList]
    rw [filter_writesOf]
    by_cases hr : r ∈ subscribers w id ++ [w.nextReply]
    · rw [if_pos hr, filter_eq_singleton hnd hr]; rfl
    · rw [if_neg hr]
      have : (subscribers w id ++ [w.nextReply]).filter (fun c => c = r) = [] := by
        rw [List.filter_eq_nil_iff]
        intro c hc
        simp only [decide_eq_true_eq]
        intro hcr
        exact hr (hcr ▸ hc)
      rw [this]; rfl

/-- C5: in every world the process can be in, a stored job that is `complete` has progress
100, and a new status subscription to it is registered and gets, within the handler, exactly
one event: the snapshot with status `complete` and progress 100. -/
theorem snapshot_of_complete_job (unicodeUpper : Nat → Str) (dirname : Str) (w : World)
    (hw : Reachable unicodeUpper dirname w) (id : Str) (job : Job)
    (hj : w.jobs id = some job) (hs : job.status = .complete) :
    job.progress = 100 ∧
    (step unicodeUpper dirname w (.downloadStatus id)).clients id
      = some (subscribers w id ++ [w.nextReply]) ∧
    eventsTo w w.nextReply = [] ∧
    eventsTo (step unicodeUpper dirname w (.downloadStatus id)) w.nextReply =
      [⟨some .complete, some 100, utf16 "Reconnected. Current status: complete", none⟩] := by
  have hinv := Inv.of_reachable hw
  have hprog := hinv.completeProgress id job hj hs
  have hk : w.clients id ≠ none ∨ id ∉ objectPrototypeKeys :=
    Or.inr (not_prototypeKey_of_length (hinv.keyLength id job hj))
  have hnew := eventsTo_new w w.nextReply hinv.wireOld
  refine ⟨hprog, ?_, hnew, ?_⟩
  · show (downloadStatus { w with nextReply := w.nextReply + 1 } id w.nextReply).world.clients id
      = _
    rw [downloadStatus_registers { w with nextReply := w.nextReply + 1 } id w.nextReply hk]
    exact setProp_same _ _ _
  · show eventsTo (downloadStatus { w with nextReply := w.nextReply + 1 } id
      w.nextReply).world w.nextReply = _
    rw [downloadStatus_eventsTo hinv id w.nextReply hk, hnew,
      if_pos (List.mem_append_right _ (List.mem_singleton.mpr rfl)),
      getProp_some _ _ _ hj]
    simp only [snapshotEvent, Option.toList, hs, hprog, List.nil_append]
    rfl

set_option maxRecDepth 100000 in
/-- Witness of C5 on the finished job of `doneWorld`. -/
theorem snapshot_of_complete_job_witness :
    Reachable sampleUpper sampleDir doneWorld ∧
    eventsTo (step sampleUpper sampleDir doneWorld (.downloadStatus zeroId)) 0 =
      [⟨some .complete, some 100, utf16 "Reconnected. Current status: complete", none⟩] :=
  ⟨⟨_, rfl⟩,
    (snapshot_of_complete_job sampleUpper sampleDir doneWorld ⟨_, rfl⟩ zeroId
      ⟨.complete, 100,
        utf16 "/srv/app/downloads/00000000000000000000000000000000_My_Video__2024.mp4",
        utf16 "My_Video__2024"⟩ (by decide) rfl).2.2.2⟩

theorem sendUpdate_eventsTo_unregistered (w : World) (id : Str) (data : Event) (r : Client)
    (h : ∀ l, w.clients id = some l → r ∉ l) :
    eventsTo (sendUpdate w id data).world r = eventsTo w r := by
  cases hc : w.clients id with
  | none =>
    apply eventsTo_eq_of_wire
    unfold sendUpdate getProp
    rw [hc]
    by_cases hk : id ∈ objectPrototypeKeys
    · simp only [hk, if_true]
    · simp only [hk, if_false]
  | some l =>
    rw [sendUpdate_registered w id data l hc,
      eventsTo_append w _ (writesOf w l data) r rfl,
      filter_writesOf_absent w l data r (h l hc), List.append_nil]

theorem downloadAsync_accepts (up : Nat → Str) (dirname : Str) (w : World) (req : AsyncRequest)
    (bytes : Bytes16) (spawnError : Option Str) :
    (downloadAsync up dirname w req bytes spawnError).2 = w ∨
      ∃ title, req.url.truthy = true ∧ req.format.truthy = true ∧
        sanitizedTitle up req.title = .ok title := by
  unfold downloadAsync
  split
  · exact Or.inl rfl
  · rename_i hv
    split
    · exact Or.inl rfl
    · rename_i title ht
      refine Or.inr ⟨title, ?_, ?_, ht⟩
      · cases hu : req.url.truthy
        · simp [hu] at hv
        · rfl
      · cases hf : req.format.truthy
        · simp [hf] at hv
        · rfl

/-- A connection that is registered nowhere and whose reply object already exists is never
written to again and never registered again, whatever happens. -/
theorem unregistered_step (up : Nat → Str) (dirname : Str) {w : World} (hw : Inv w) (r : Client)
    (hun : ∀ id l, w.clients id = some l → r ∉ l) (hold : r < w.nextReply) (a : Action) :
    (∀ id l, (step up dirname w a).clients id = some l → r ∉ l) ∧
    r < (step up dirname w a).nextReply ∧
    eventsTo (step up dirname w a) r = eventsTo w r := by
  have hnot : ∀ id, r ∉ subscribers w id := by
    intro id hr
    obtain ⟨l, hl, hrl⟩ := mem_subscribers hr
    exact hun id l hl hrl
  have task : ∀ (w2 : World) (id : Str) (job2 : Job) (evs : List Event),
      TaskStep w w2 id job2 evs →
      (∀ k l, w2.clients k = some l → r ∉ l) ∧ r < w2.nextReply ∧
        eventsTo w2 r = eventsTo w r := by
    intro w2 id job2 evs h
    refine ⟨?_, ?_, ?_⟩
    · rw [h.clients]; exact hun
    · rw [h.nextReply]; exact hold
    · rw [h.eventsTo hw r, if_neg (hnot id), List.append_nil]
  cases a with
  | downloadAsync req bytes spawnError =>
    show (∀ id l, (downloadAsync up dirname w req bytes spawnError).2.clients id = some l → r ∉ l)
      ∧ r < (downloadAsync up dirname w req bytes spawnError).2.nextReply
      ∧ eventsTo (downloadAsync up dirname w req bytes spawnError).2 r = eventsTo w r
    rcases downloadAsync_accepts up dirname w req bytes spawnError with h | ⟨title, h1, h2, h3⟩
    · rw [h]; exact ⟨hun, hold, rfl⟩
    · obtain ⟨⟨ha, _⟩, hb⟩ := downloadAsync_taskStep up dirname w req bytes title h1 h2 h3
      cases spawnError with
      | none => exact task _ _ _ _ ha
      | some err => exact task _ _ _ _ (hb err).1
  | toolExit jobId result =>
    by_cases hp : jobId ∈ w.pending
    · obtain ⟨job, _, ⟨ha, _⟩, hb⟩ := toolExit_taskStep up dirname hw jobId hp
      cases result with
      | none => exact task _ _ _ _ ha
      | some err => exact task _ _ _ _ (hb err).1
    · have : step up dirname w (.toolExit jobId result) = w := by
        show (if jobId ∈ w.pending then _ else w) = w
        rw [if_neg hp]
      rw [this]; exact ⟨hun, hold, rfl⟩
  | downloadStatus id =>
    show (∀ k l, (downloadStatus { w with nextReply := w.nextReply + 1 } id
        w.nextReply).world.clients k = some l → r ∉ l)
      ∧ r < (downloadStatus { w with nextReply := w.nextReply + 1 } id w.nextReply).world.nextReply
      ∧ eventsTo (downloadStatus { w with nextReply := w.nextReply + 1 } id
        w.nextReply).world r = eventsTo w r
    have hne : r ≠ w.nextReply := Nat.ne_of_lt hold
    by_cases h : w.clients id ≠ none ∨ id ∉ objectPrototypeKeys
    · have hmem : r ∉ subscribers w id ++ [w.nextReply] := by
        intro hm
        rcases List.mem_append.mp hm with h1 | h1
        · exact hnot id h1
        · exact hne (List.mem_singleton.mp h1)
      refine ⟨?_, ?_, ?_⟩
      · rw [downloadStatus_registers { w with nextReply := w.nextReply + 1 } id w.nextReply h]
        intro k l hl
        have hl2 : setProp w.clients id (subscribers w id ++ [w.nextReply]) k = some l := hl
        by_cases hk : k = id
        · rw [hk, setProp_same] at hl2
          cases hl2; exact hmem
        · rw [setProp_other _ _ _ _ hk] at hl2
          exact hun k l hl2
      · rw [downloadStatus_registers { w with nextReply := w.nextReply + 1 } id w.nextReply h]
        exact Nat.lt_succ_of_lt hold
      · rw [downloadStatus_eventsTo hw id r h, if_neg hmem, List.append_nil]
    · have h1 : w.clients id = none := by
        by_contra hc; exact h (Or.inl hc)
      have h2 : id ∈ objectPrototypeKeys := by
        by_contra hc; exact h (Or.inr hc)
      rw [downloadStatus_thrown { w with nextReply := w.nextReply + 1 } id w.nextReply h1 h2]
      exact ⟨hun, Nat.lt_succ_of_lt hold, rfl⟩
  | close id reply =>
    show (∀ k l, (closeHandler w id reply).world.clients k = some l → r ∉ l)
      ∧ r < (closeHandler w id reply).world.nextReply
      ∧ eventsTo (closeHandler w id reply).world r = eventsTo w r
    obtain ⟨_, _, hn, hwire, _, _⟩ := closeHandler_frame w id reply
    refine ⟨?_, ?_, eventsTo_eq_of_wire _ _ r hwire⟩
    · intro k l hl hr
      obtain ⟨l0, hl0, hsub⟩ := closeHandler_shrinks w id reply k l hl
      exact hun k l0 hl0 (hsub.subset hr)
    · rw [hn]; exact hold
  | downloadFile id =>
    show (∀ k l, (downloadFile w id).2.clients k = some l → r ∉ l)
      ∧ r < (downloadFile w id).2.nextReply
      ∧ eventsTo (downloadFile w id).2 r = eventsTo w r
    rw [downloadFile_world]; exact ⟨hun, hold, rfl⟩
  | socketDies reply => exact ⟨hun, hold, rfl⟩

theorem unregistered_run (up : Nat → Str) (dirname : Str) (r : Client) (actions : List Action) :
    ∀ {w : World}, Inv w → (∀ id l, w.clients id = some l → r ∉ l) → r < w.nextReply →
      eventsTo (run up dirname w actions) r = eventsTo w r := by
  induction actions with
  | nil => intro w _ _ _; rfl
  | cons a rest ih =>
    intro w hw hun hold
    obtain ⟨h1, h2, h3⟩ := unregistered_step up dirname hw r hun hold a
    show eventsTo (run up dirname (step up dirname w a) rest) r = eventsTo w r
    rw [ih (hw.step up dirname a) h1 h2, h3]

/-- C6: the `close` listener of a registered connection `r`.  It does not throw; the list of
the id becomes the old list without `r`, so the other connections stay in their order; the
entries of the other ids are unchanged; the entry of the id is absent exactly when no
connection of the id remains; a `sendUpdate` for the id right afterwards writes nothing to
`r`; and in a world the process can be in, nothing is written to `r` in any continuation of
the execution. -/
theorem closeHandler_unsubscribes (unicodeUpper : Nat → Str) (dirname : Str) (w : World)
    (id : Str) (r : Client) (l : List Client) (hl : w.clients id = some l) (hr : r ∈ l) :
    (closeHandler w id r).thrown = none ∧
    subscribers (closeHandler w id r).world id = l.filter (fun c => c ≠ r) ∧
    r ∉ subscribers (closeHandler w id r).world id ∧
    (∀ c ∈ l, c ≠ r → c ∈ subscribers (closeHandler w id r).world id) ∧
    (subscribers (closeHandler w id r).world id).Sublist l ∧
    (∀ k, k ≠ id → (closeHandler w id r).world.clients k = w.clients k) ∧
    ((closeHandler w id r).world.clients id = none ↔
      subscribers (closeHandler w id r).world id = []) ∧
    ((closeHandler w id r).world.clients id = none ↔ ∀ c ∈ l, c = r) ∧
    (closeHandler w id r).world.jobs = w.jobs ∧
    (∀ data, eventsTo (sendUpdate (closeHandler w id r).world id data).world r = eventsTo w r) ∧
    (Reachable unicodeUpper dirname w → ∀ actions,
      eventsTo (run unicodeUpper dirname (closeHandler w id r).world actions) r
        = eventsTo w r) := by
  have hsubs : subscribers (closeHandler w id r).world id = l.filter (fun c => c ≠ r) := by
    rw [closeHandler_registered w id r l hl]
    unfold subscribers
    by_cases hf : l.filter (fun c => c ≠ r) = []
    · simp only [hf, if_true, deleteProp, Option.getD_none]
    · simp only [hf, if_false, setProp_same, Option.getD_some]
  have hnone : (closeHandler w id r).world.clients id = none ↔
      l.filter (fun c => c ≠ r) = [] := by
    rw [closeHandler_registered w id r l hl]
    by_cases hf : l.filter (fun c => c ≠ r) = []
    · simp only [hf, if_true, deleteProp]
    · simp only [hf, if_false, setProp_same, reduceCtorEq]
  have hnot : r ∉ l.filter (fun c => c ≠ r) := by
    intro hm
    have := (List.mem_filter.mp hm).2
    simp at this
  have hwire := (closeHandler_frame w id r).2.2.2.1
  have hunreg : ∀ l2, (closeHandler w id r).world.clients id = some l2 → r ∉ l2 := by
    intro l2 h2 hm
    have : subscribers (closeHandler w id r).world id = l2 := subscribers_of_some h2
    rw [hsubs] at this
    exact hnot (this ▸ hm)
  refine ⟨?_, hsubs, ?_, ?_, ?_, ?_, ?_, ?_, (closeHandler_frame w id r).1, ?_, ?_⟩
  · rw [closeHandler_registered w id r l hl]
  · rw [hsubs]; exact hnot
  · intro c hc hne
    rw [hsubs]
    exact List.mem_filter.mpr ⟨hc, by simpa using hne⟩
  · rw [hsubs]; exact List.filter_sublist l
  · intro k hk
    rw [closeHandler_registered w id r l hl]
    by_cases hf : l.filter (fun c => c ≠ r) = []
    · simp only [hf, if_true, deleteProp, hk, if_false]
    · simp only [hf, if_false, setProp_other _ _ _ _ hk]
  · rw [hnone, hsubs]
  · rw [hnone, List.filter_eq_nil_iff]
    constructor
    · intro h c hc
      have := h c hc
      simpa using this
    · intro h c hc
      simpa using h c hc
  · intro data
    rw [sendUpdate_eventsTo_unregistered _ id data r hunreg]
    exact eventsTo_eq_of_wire _ _ r hwire
  · intro hreach actions
    have hinv := Inv.of_reachable hreach
    have hinv2 := hinv.close id r
    rw [unregistered_run unicodeUpper dirname r actions hinv2 ?_ ?_]
    · exact eventsTo_eq_of_wire _ _ r hwire
    · intro k l2 h2 hm
      by_cases hk : k = id
      · subst hk; exact hunreg l2 h2 hm
      · obtain ⟨l0, hl0, hsub⟩ := closeHandler_shrinks w id r k l2 h2
        exact hk (hinv.oneId k id l0 l r hl0 hl (hsub.subset hm) hr)
    · rw [(closeHandler_frame w id r).2.2.1]
      exact hinv.registeredOld id l hl r hr

/-- Witness of C6: of the two connections of `twoClients`, the first one closes. -/
theorem closeHandler_unsubscribes_witness :
    twoClients.clients zeroId = some [0, 1] ∧
    subscribers (closeHandler twoClients zeroId 0).world zeroId = [1] :=
  ⟨by decide,
    (closeHandler_unsubscribes sampleUpper sampleDir twoClients zeroId 0 [0, 1]
      (by decide) (by decide)).2.1⟩

/-! ## Output paths -/

theorem afterLastSlash_plain (name : Str) (h : 47 ∉ name) : afterLastSlash name = name := by
  cases name with
  | nil => rfl
  | cons c rest =>
    have h1 : 47 ∉ rest := fun hm => h (List.mem_cons_of_mem _ hm)
    have h2 : c ≠ 47 := fun hc => h (hc ▸ List.mem_cons_self _ _)
    simp only [afterLastSlash, h1, h2, if_false]

theorem afterLastSlash_append (p name : Str) (h : 47 ∉ name) :
    afterLastSlash (p ++ 47 :: name) = name := by
  induction p with
  | nil =>
    simp only [List.nil_append, afterLastSlash, h, if_false, if_true]
  | cons c rest ih =>
    have : 47 ∈ rest ++ 47 :: name :=
      List.mem_append_right _ (List.mem_cons_self _ _)
    rw [List.cons_append, afterLastSlash, if_pos this, ih]

theorem splitSlash_ne_nil (p : Str) : splitSlash p ≠ [] := by
  cases p with
  | nil => simp [splitSlash]
  | cons c rest =>
    unfold splitSlash
    split
    · simp
    · split <;> simp

theorem splitSlash_plain (name : Str) (h : 47 ∉ name) : splitSlash name = [name] := by
  induction name with
  | nil => rfl
  | cons c rest ih =>
    have h1 : 47 ∉ rest := fun hm => h (List.mem_cons_of_mem _ hm)
    have h2 : c ≠ 47 := fun hc => h (hc ▸ List.mem_cons_self _ _)
    simp only [splitSlash, h2, if_false, ih h1]

theorem splitSlash_append (p name : Str) (h : 47 ∉ name) :
    splitSlash (p ++ 47 :: name) = splitSlash p ++ [name] := by
  induction p with
  | nil =>
    simp only [List.nil_append, splitSlash, if_true, splitSlash_plain name h,
      List.cons_append]
  | cons c rest ih =>
    by_cases hc : c = 47
    · rw [List.cons_append, splitSlash, if_pos hc, ih, splitSlash, if_pos hc]
      rfl
    · rw [List.cons_append, splitSlash, if_neg hc, ih, splitSlash, if_neg hc]
      cases hs : splitSlash rest with
      | nil => exact absurd hs (splitSlash_ne_nil rest)
      | cons seg segs => rfl

theorem normalizeSegments_append (allow : Bool) (name : Str) (h : PlainSegment name)
    (segs : List Str) :
    ∀ stack, normalizeSegments allow stack (segs ++ [name])
      = normalizeSegments allow stack segs ++ [name] := by
  induction segs with
  | nil =>
    intro stack
    have h1 : ¬ (name = [] ∨ name = utf16 ".") := by
      intro hh; rcases hh with hh | hh
      · exact h.1 hh
      · exact h.2.2.1 hh
    simp only [List.nil_append, normalizeSegments, h1, h.2.2.2, if_false, List.reverse_cons]
  | cons seg rest ih =>
    intro stack
    simp only [List.cons_append, normalizeSegments]
    split
    · exact ih _
    · split
      · split
        · split
          · exact ih _
          · exact ih _
        · exact ih _
      · exact ih _

theorem joinSlash_append (segs : List Str) (name : Str) :
    joinSlash (segs ++ [name]) = name ∨ ∃ p, joinSlash (segs ++ [name]) = p ++ 47 :: name := by
  induction segs with
  | nil => exact Or.inl rfl
  | cons seg rest ih =>
    right
    cases rest with
    | nil => exact ⟨seg, rfl⟩
    | cons seg2 rest2 =>
      have hstep : joinSlash (seg :: seg2 :: rest2 ++ [name])
          = seg ++ 47 :: joinSlash (seg2 :: rest2 ++ [name]) := rfl
      rw [hstep]
      rcases ih with h | ⟨p, h⟩
      · rw [h]; exact ⟨seg, rfl⟩
      · rw [h]; exact ⟨seg ++ 47 :: p, by simp⟩

theorem posixNormalize_ends (path name : Str) (h : PlainSegment name)
    (hp : path = name ∨ ∃ a, path = a ++ 47 :: name) :
    posixNormalize path = name ∨ ∃ p, posixNormalize path = p ++ 47 :: name := by
  have hsplit : ∃ segs, splitSlash path = segs ++ [name] := by
    rcases hp with hp | ⟨a, hp⟩
    · exact ⟨[], by rw [hp, splitSlash_plain name h.2.1]; rfl⟩
    · exact ⟨splitSlash a, by rw [hp, splitSlash_append a name h.2.1]⟩
  have hne : path ≠ [] := by
    rcases hp with hp | ⟨a, hp⟩
    · rw [hp]; exact h.1
    · rw [hp]; simp
  have hlast : path.getLast? ≠ some 47 := by
    intro hl
    have hmem : (47 : Nat) ∈ name := by
      rcases hp with hp | ⟨a, hp⟩
      · rw [hp] at hl; exact List.mem_of_getLast?_eq_some hl
      · rw [hp, List.getLast?_append] at hl
        cases hn : (47 :: name).getLast? with
        | none => simp at hn
        | some x =>
          rw [hn] at hl
          simp only [Option.or_some] at hl
          cases hl
          cases name with
          | nil => exact absurd rfl h.1
          | cons c rest =>
            rw [List.getLast?_cons_cons] at hn
            exact List.mem_of_getLast?_eq_some hn
    exact h.2.1 hmem
  obtain ⟨segs, hsegs⟩ := hsplit
  unfold posixNormalize
  rw [if_neg hne]
  simp only [hsegs, normalizeSegments_append _ name h, hlast, if_false]
  have hbody : ∀ ys : List Str, joinSlash (ys ++ [name]) ≠ [] := by
    intro ys hj
    rcases joinSlash_append ys name with h1 | ⟨p, h1⟩
    · rw [h1] at hj; exact h.1 hj
    · rw [h1] at hj; simp at hj
  rw [if_neg (hbody _)]
  rcases joinSlash_append (normalizeSegments (!decide (path.head? = some 47)) [] segs) name
    with h1 | ⟨p, h1⟩
  · rw [h1]
    split
    · exact Or.inr ⟨[], rfl⟩
    · exact Or.inl rfl
  · rw [h1]
    split
    · exact Or.inr ⟨47 :: p, rfl⟩
    · exact Or.inr ⟨p, rfl⟩

theorem pathJoin_ends (dir name : Str) (h : PlainSegment name) :
    pathJoin dir name = name ∨ ∃ p, pathJoin dir name = p ++ 47 :: name := by
  unfold pathJoin
  by_cases hd : dir = []
  · rw [if_pos hd, if_neg h.1]
    exact posixNormalize_ends name name h (Or.inl rfl)
  · rw [if_neg hd, if_neg h.1]
    exact posixNormalize_ends _ name h (Or.inr ⟨dir, rfl⟩)

theorem afterLastSlash_pathJoin (dir name : Str) (h : PlainSegment name) :
    afterLastSlash (pathJoin dir name) = name := by
  rcases pathJoin_ends dir name h with h1 | ⟨p, h1⟩
  · rw [h1]; exact afterLastSlash_plain name h.2.1
  · rw [h1]; exact afterLastSlash_append p name h.2.1

theorem specAllowed_not_slash (ch : Nat) (h : specAllowed ch = true) : ch ≠ 47 := by
  intro hc; rw [hc] at h; revert h; decide

theorem replaceDisallowed_no_slash (up : Nat → Str) (t : Str) :
    47 ∉ replaceDisallowed up t := by
  rw [replaceDisallowed_eq_map]
  intro hm
  rw [List.mem_map] at hm
  obtain ⟨ch, _, hch⟩ := hm
  by_cases hs : specAllowed ch = true
  · rw [if_pos hs] at hch
    exact specAllowed_not_slash ch hs hch
  · rw [if_neg hs] at hch
    cases hch

theorem sanitizedTitle_no_slash (up : Nat → Str) (title : Field) (s : Str)
    (h : sanitizedTitle up title = .ok s) : 47 ∉ s := by
  unfold sanitizedTitle at h
  split at h
  · cases h; exact replaceDisallowed_no_slash up _
  · cases h; exact replaceDisallowed_no_slash up _
  · cases h
  · cases h; exact replaceDisallowed_no_slash up _

theorem isHexDigit_not_slash (ch : Nat) (h : isHexDigit ch = true) : ch ≠ 47 := by
  intro hc; rw [hc] at h; revert h; decide

theorem fileName_plain (bytes : Bytes16) (s : Str) (hs : 47 ∉ s) :
    PlainSegment (hexEncode bytes.data ++ utf16 "_" ++ s ++ utf16 ".mp4") := by
  have hlen : 32 ≤ (hexEncode bytes.data ++ utf16 "_" ++ s ++ utf16 ".mp4").length := by
    simp only [List.length_append, jobId_length bytes]
    omega
  refine ⟨?_, ?_, ?_, ?_⟩
  · intro h; rw [h] at hlen; simp at hlen
  · intro hm
    simp only [List.mem_append] at hm
    rcases hm with ((hm | hm) | hm) | hm
    · exact isHexDigit_not_slash 47 (hexEncode_isHex _ bytes.byte 47 hm) rfl
    · revert hm; decide
    · exact hs hm
    · revert hm; decide
  · intro h; rw [h] at hlen; revert hlen; decide
  · intro h; rw [h] at hlen; revert hlen; decide

/-- C9: two jobs with distinct ids get distinct output paths, whatever their titles and
whatever the directory of the module: the file name is the last segment of the path and
starts with the 32 digits of the id. -/
theorem outputPath_injective (unicodeUpper : Nat → Str) (dirname : Str) (b1 b2 : Bytes16)
    (t1 t2 : Field) (s1 s2 : Str)
    (h1 : sanitizedTitle unicodeUpper t1 = .ok s1)
    (h2 : sanitizedTitle unicodeUpper t2 = .ok s2)
    (hne : hexEncode b1.data ≠ hexEncode b2.data) :
    outputPath dirname (hexEncode b1.data) s1 ≠ outputPath dirname (hexEncode b2.data) s2 := by
  intro heq
  have e1 := afterLastSlash_pathJoin (DOWNLOAD_DIR dirname) _
    (fileName_plain b1 s1 (sanitizedTitle_no_slash unicodeUpper t1 s1 h1))
  have e2 := afterLastSlash_pathJoin (DOWNLOAD_DIR dirname) _
    (fileName_plain b2 s2 (sanitizedTitle_no_slash unicodeUpper t2 s2 h2))
  unfold outputPath at heq
  rw [heq, e2] at e1
  simp only [List.append_assoc] at e1
  have hlen : (hexEncode b2.data).length = (hexEncode b1.data).length := by
    rw [jobId_length, jobId_length]
  exact hne (List.append_inj_left e1 hlen).symm

/-- Witness of C9: the same title under the ids of `zeroBytes` and `otherBytes`. -/
theorem outputPath_injective_witness :
    outputPath sampleDir (hexEncode zeroBytes.data) (utf16 "My_Video__2024")
      ≠ outputPath sampleDir (hexEncode otherBytes.data) (utf16 "My_Video__2024") :=
  outputPath_injective sampleUpper sampleDir zeroBytes otherBytes
    (.str (utf16 "My Video! 2024")) (.str (utf16 "My Video! 2024"))
    (utf16 "My_Video__2024") (utf16 "My_Video__2024")
    (by rw [sanitizedTitle_str]; exact congrArg Except.ok (by decide))
    (by rw [sanitizedTitle_str]; exact congrArg Except.ok (by decide))
    (by decide)

/-! ## The order of the statuses sent to one connection -/

theorem Status.le_refl (a : Status) : Status.le a a = true := by
  cases a <;> rfl

theorem Status.le_trans (a b c : Status) (h1 : Status.le a b = true)
    (h2 : Status.le b c = true) : Status.le a c = true := by
  revert h1 h2
  cases a <;> cases b <;> cases c <;> decide

theorem Status.le_antisymm (a b : Status) (h1 : Status.le a b = true)
    (h2 : Status.le b a = true) : a = b := by
  revert h1 h2
  cases a <;> cases b <;> decide

theorem Status.lt_rank (a b : Status) (h : Status.lt a b = true) : a.rank < b.rank := by
  revert h
  cases a <;> cases b <;> decide

theorem Status.rank_le (a : Status) : a.rank ≤ 3 := by
  cases a <;> decide

theorem mem_squeeze : ∀ (l : List Status) (y : Status), y ∈ squeeze l → y ∈ l
  | [], _, h => h
  | [_], _, h => h
  | s :: t :: rest, y, h => by
    unfold squeeze at h
    split at h
    · exact List.mem_cons_of_mem _ (mem_squeeze (t :: rest) y h)
    · rcases List.mem_cons.mp h with h1 | h1
      · rw [h1]; exact List.mem_cons_self _ _
      · exact List.mem_cons_of_mem _ (mem_squeeze (t :: rest) y h1)

theorem squeeze_strict : ∀ (l : List Status),
    l.Pairwise (fun a b => Status.le a b = true) →
    (squeeze l).Pairwise (fun a b => Status.lt a b = true)
  | [], _ => List.Pairwise.nil
  | [_], _ => List.pairwise_singleton _ _
  | s :: t :: rest, h => by
    have htail := squeeze_strict (t :: rest) (List.Pairwise.of_cons h)
    have hhead : ∀ {y}, y ∈ t :: rest → Status.le s y = true :=
      fun hy => List.rel_of_pairwise_cons h hy
    unfold squeeze
    split
    · exact htail
    · rename_i hst
      refine List.Pairwise.cons ?_ htail
      intro y hy
      have hy2 := mem_squeeze _ y hy
      have hsy := hhead hy2
      have hst2 := hhead (List.mem_cons_self t rest)
      have hty : Status.le t y = true := by
        rcases List.mem_cons.mp hy2 with h1 | h1
        · rw [h1]; exact Status.le_refl t
        · exact List.rel_of_pairwise_cons (List.Pairwise.of_cons h) h1
      unfold Status.lt
      rw [hsy, Bool.true_and, decide_eq_true_eq]
      intro hsy2
      subst hsy2
      exact hst (Status.le_antisymm s t hst2 hty)

theorem strict_short : ∀ a b c d e : Status, ∀ rest : List Status,
    ¬ (a :: b :: c :: d :: e :: rest).Pairwise (fun x y => Status.lt x y = true) := by
  intro a b c d e rest h
  have hab := Status.lt_rank a b (List.rel_of_pairwise_cons h (List.mem_cons_self _ _))
  have h2 := List.Pairwise.of_cons h
  have hbc := Status.lt_rank b c (List.rel_of_pairwise_cons h2 (List.mem_cons_self _ _))
  have h3 := List.Pairwise.of_cons h2
  have hcd := Status.lt_rank c d (List.rel_of_pairwise_cons h3 (List.mem_cons_self _ _))
  have h4 := List.Pairwise.of_cons h3
  have hde := Status.lt_rank d e (List.rel_of_pairwise_cons h4 (List.mem_cons_self _ _))
  have := Status.rank_le e
  omega

theorem strict_sublist (m : List Status)
    (h : m.Pairwise (fun x y => Status.lt x y = true)) :
    m.Sublist happyPath ∨ m.Sublist failurePath := by
  match m, h with
  | [], _ => exact Or.inl (List.nil_sublist _)
  | [a], _ => cases a <;> decide
  | [a, b], h =>
    revert h
    cases a <;> cases b <;> decide
  | [a, b, c], h =>
    revert h
    cases a <;> cases b <;> cases c <;> decide
  | [a, b, c, d], h =>
    revert h
    cases a <;> cases b <;> cases c <;> cases d <;> decide
  | a :: b :: c :: d :: e :: rest, h => exact absurd h (strict_short a b c d e rest)

/-- A list of statuses that never steps back is, once repeats are merged, a subsequence of
one of the two paths. -/
theorem squeeze_sublist (l : List Status)
    (h : l.Pairwise (fun a b => Status.le a b = true)) :
    (squeeze l).Sublist happyPath ∨ (squeeze l).Sublist failurePath :=
  strict_sublist _ (squeeze_strict l h)

theorem TaskStep.statusesTo {w w2 : World} {id : Str} {job2 : Job} {evs : List Event}
    (hw : Inv w) (h : TaskStep w w2 id job2 evs) (r : Client) :
    statusesTo w2 r = statusesTo w r ++
      (if r ∈ subscribers w id then evs.filterMap (fun e => e.status) else []) := by
  unfold Ytdl.statusesTo
  rw [h.eventsTo hw r, List.filterMap_append]
  split <;> rfl

theorem Ordered.ofInit : Ordered World.init where
  pendingDownloading := by intro id h; cases h
  pendingNodup := List.nodup_nil
  mono := fun _ => List.Pairwise.nil
  bounded := by intro id l r job h; cases h
  quiet := by intro id l r h; cases h

/-- A piece of a background task keeps the order, provided the statuses it publishes are in
order, not ahead of the job record it leaves, and not behind what the connections of the job
have been sent. -/
theorem Ordered.ofTask {w w2 : World} {id : Str} {job2 : Job} {evs : List Event}
    (hw : Inv w) (ho : Ordered w) (h : TaskStep w w2 id job2 evs)
    (hS : (evs.filterMap fun e => e.status).Pairwise fun a b => Status.le a b = true)
    (hSb : ∀ m ∈ evs.filterMap (fun e => e.status), Status.le m job2.status = true)
    (hprev : ∀ r ∈ subscribers w id, ∀ y ∈ statusesTo w r,
      Status.le y job2.status = true ∧
        ∀ m ∈ evs.filterMap (fun e => e.status), Status.le y m = true)
    (hpd : ∀ k ∈ w2.pending,
      (k = id ∧ job2.status = .downloading) ∨ (k ≠ id ∧ k ∈ w.pending))
    (hnd : w2.pending.Nodup) : Ordered w2 := by
  have hother : ∀ k l r, w.clients k = some l → r ∈ l → k ≠ id →
      statusesTo w2 r = statusesTo w r := by
    intro k l r hl hr hk
    rw [h.statusesTo hw r, if_neg, List.append_nil]
    intro hm
    obtain ⟨l0, hl0, hr0⟩ := mem_subscribers hm
    exact hk (hw.oneId k id l l0 r hl hl0 hr hr0)
  refine ⟨?_, hnd, ?_, ?_, ?_⟩
  · intro k hk
    rcases hpd k hk with ⟨h1, h2⟩ | ⟨h1, h2⟩
    · exact ⟨job2, by rw [h.jobs, h1, setProp_same], h2⟩
    · rw [h.jobs, setProp_other _ _ _ _ h1]
      exact ho.pendingDownloading k h2
  · intro r
    rw [h.statusesTo hw r]
    by_cases hr : r ∈ subscribers w id
    · rw [if_pos hr, List.pairwise_append]
      exact ⟨ho.mono r, hS, fun y hy m hm => (hprev r hr y hy).2 m hm⟩
    · rw [if_neg hr, List.append_nil]; exact ho.mono r
  · intro k l r job hl hr hj y hy
    rw [h.clients] at hl
    by_cases hk : k = id
    · subst hk
      rw [h.jobs, setProp_same] at hj
      cases hj
      have hsub : r ∈ subscribers w k := by rw [subscribers_of_some hl]; exact hr
      rw [h.statusesTo hw r, if_pos hsub] at hy
      rcases List.mem_append.mp hy with h1 | h1
      · exact (hprev r hsub y h1).1
      · exact hSb y h1
    · rw [h.jobs, setProp_other _ _ _ _ hk] at hj
      rw [hother k l r hl hr hk] at hy
      exact ho.bounded k l r job hl hr hj y hy
  · intro k l r hl hr hj
    rw [h.clients] at hl
    have hk : k ≠ id := by
      intro hk
      rw [h.jobs, hk, setProp_same] at hj
      cases hj
    rw [h.jobs, setProp_other _ _ _ _ hk] at hj
    rw [hother k l r hl hr hk]
    exact ho.quiet k l r hl hr hj

theorem Ordered.afterCreate (up : Nat → Str) (dirname : Str) {w : World} (hw : Inv w)
    (ho : Ordered w) (req : AsyncRequest) (bytes : Bytes16) (spawnError : Option Str)
    (hacc : Accepted up req → w.jobs (hexEncode bytes.data) = none) :
    Ordered (downloadAsync up dirname w req bytes spawnError).2 := by
  rcases downloadAsync_accepts up dirname w req bytes spawnError with h | ⟨title, h1, h2, h3⟩
  · rw [h]; exact ho
  · have hfresh := hacc ⟨h1, h2, title, h3⟩
    obtain ⟨⟨ha, hpa⟩, hb⟩ := downloadAsync_taskStep up dirname w req bytes title h1 h2 h3
    have hnp : hexEncode bytes.data ∉ w.pending := by
      intro hp
      obtain ⟨job, hj⟩ := hw.pendingStored _ hp
      rw [hfresh] at hj; cases hj
    have hprev : ∀ (job2 : Job) (evs : List Event),
        ∀ r ∈ subscribers w (hexEncode bytes.data), ∀ y ∈ statusesTo w r,
          Status.le y job2.status = true ∧
            ∀ m ∈ evs.filterMap (fun e => e.status), Status.le y m = true := by
      intro job2 evs r hr y hy
      obtain ⟨l, hl, hrl⟩ := mem_subscribers hr
      rw [ho.quiet _ l r hl hrl hfresh] at hy
      cases hy
    cases spawnError with
    | none =>
      refine Ordered.ofTask hw ho ha
        (show List.Pairwise (fun a b => Status.le a b = true) [Status.downloading] by decide)
        (show ∀ m ∈ [Status.downloading], Status.le m .downloading = true by decide)
        (hprev _ _) ?_ ?_
      · intro k hk
        rw [hpa] at hk
        rcases List.mem_append.mp hk with h4 | h4
        · exact Or.inr ⟨fun he => hnp (he ▸ h4), h4⟩
        · exact Or.inl ⟨List.mem_singleton.mp h4, rfl⟩
      · rw [hpa, List.nodup_append]
        refine ⟨ho.pendingNodup, List.nodup_singleton _, ?_⟩
        intro a ha1 ha2
        rw [List.mem_singleton] at ha2
        exact hnp (ha2 ▸ ha1)
    | some err =>
      obtain ⟨hc, hpc⟩ := hb err
      refine Ordered.ofTask hw ho hc
        (show List.Pairwise (fun a b => Status.le a b = true)
          [Status.downloading, Status.failed] by decide)
        (show ∀ m ∈ [Status.downloading, Status.failed], Status.le m .failed = true by decide)
        (hprev _ _) ?_ ?_
      · intro k hk
        rw [hpc] at hk
        exact Or.inr ⟨fun he => hnp (he ▸ hk), hk⟩
      · rw [hpc]; exact ho.pendingNodup

theorem Ordered.afterToolExit (up : Nat → Str) (dirname : Str) {w : World} (hw : Inv w)
    (ho : Ordered w) (id : Str) (result : Option Str) :
    Ordered (step up dirname w (.toolExit id result)) := by
  by_cases hp : id ∈ w.pending
  · obtain ⟨job, hj, ⟨ha, hpa⟩, hb⟩ := toolExit_taskStep up dirname hw id hp
    obtain ⟨job0, hj0, hs0⟩ := ho.pendingDownloading id hp
    rw [hj] at hj0
    cases hj0
    have hpend : ∀ k ∈ w.pending.erase id, k ≠ id ∧ k ∈ w.pending := by
      intro k hk
      exact ⟨fun he => (List.Nodup.not_mem_erase ho.pendingNodup) (he ▸ hk),
        List.mem_of_mem_erase hk⟩
    have hbound : ∀ r ∈ subscribers w id, ∀ y ∈ statusesTo w r,
        Status.le y .downloading = true := by
      intro r hr y hy
      obtain ⟨l, hl, hrl⟩ := mem_subscribers hr
      have := ho.bounded id l r job hl hrl hj y hy
      rwa [hs0] at this
    cases result with
    | none =>
      refine Ordered.ofTask hw ho ha
        (show List.Pairwise (fun a b => Status.le a b = true)
          [Status.merging, Status.complete] by decide)
        (show ∀ m ∈ [Status.merging, Status.complete], Status.le m .complete = true by decide)
        ?_ ?_ ?_
      · intro r hr y hy
        have hyd := hbound r hr y hy
        refine ⟨Status.le_trans y .downloading .complete hyd rfl, ?_⟩
        intro m hm
        have hm2 : m = .merging ∨ m = .complete := by
          have hm3 : m ∈ [Status.merging, Status.complete] := hm
          simpa using hm3
        rcases hm2 with rfl | rfl
        · exact Status.le_trans y .downloading .merging hyd rfl
        · exact Status.le_trans y .downloading .complete hyd rfl
      · intro k hk
        rw [hpa] at hk
        exact Or.inr (hpend k hk)
      · rw [hpa]; exact ho.pendingNodup.erase id
    | some err =>
      obtain ⟨hc, hpc⟩ := hb err
      refine Ordered.ofTask hw ho hc
        (show List.Pairwise (fun a b => Status.le a b = true) [Status.failed] by decide)
        (show ∀ m ∈ [Status.failed], Status.le m .failed = true by decide)
        ?_ ?_ ?_
      · intro r hr y hy
        have hyd := hbound r hr y hy
        refine ⟨Status.le_trans y .downloading .failed hyd rfl, ?_⟩
        intro m hm
        have hm2 : m = .failed := by
          have hm3 : m ∈ [Status.failed] := hm
          simpa using hm3
        rw [hm2]
        exact Status.le_trans y .downloading .failed hyd rfl
      · intro k hk
        rw [hpc] at hk
        exact Or.inr (hpend k hk)
      · rw [hpc]; exact ho.pendingNodup.erase id
  · have : step up dirname w (.toolExit id result) = w := by
      show (if id ∈ w.pending then _ else w) = w
      rw [if_neg hp]
    rw [this]; exact ho

theorem snapshotStatuses_stored (w : World) (id : Str) (job : Job) (h : w.jobs id = some job) :
    snapshotStatuses w id = [job.status] := by
  unfold snapshotStatuses
  rw [getProp_some _ _ _ h]
  rfl

theorem snapshotStatuses_none (w : World) (id : Str) (h : w.jobs id = none) :
    snapshotStatuses w id = [] := by
  unfold snapshotStatuses getProp
  rw [h]
  by_cases hk : id ∈ objectPrototypeKeys
  · simp only [hk, if_true]; rfl
  · simp only [hk, if_false]; rfl

theorem downloadStatus_statusesTo {w : World} (hw : Inv w) (id : Str) (r : Client)
    (h : w.clients id ≠ none ∨ id ∉ objectPrototypeKeys) :
    statusesTo (downloadStatus { w with nextReply := w.nextReply + 1 } id w.nextReply).world r =
      statusesTo w r ++
        (if r ∈ subscribers w id ++ [w.nextReply] then snapshotStatuses w id else []) := by
  unfold statusesTo snapshotStatuses
  rw [downloadStatus_eventsTo hw id r h, List.filterMap_append]
  split <;> rfl

theorem Ordered.afterSubscribe {w : World} (hw : Inv w) (ho : Ordered w) (id : Str) :
    Ordered (downloadStatus { w with nextReply := w.nextReply + 1 } id w.nextReply).world := by
  by_cases h : w.clients id ≠ none ∨ id ∉ objectPrototypeKeys
  · have hst := fun r => downloadStatus_statusesTo hw id r h
    have hform := downloadStatus_registers { w with nextReply := w.nextReply + 1 } id
      w.nextReply h
    have hjobs : (Ytdl.downloadStatus { w with nextReply := w.nextReply + 1 } id
        w.nextReply).world.jobs = w.jobs := by rw [hform]
    have hpend : (Ytdl.downloadStatus { w with nextReply := w.nextReply + 1 } id
        w.nextReply).world.pending = w.pending := by rw [hform]
    have hcl : (Ytdl.downloadStatus { w with nextReply := w.nextReply + 1 } id
        w.nextReply).world.clients = setProp w.clients id (subscribers w id ++ [w.nextReply]) := by
      rw [hform]; rfl
    have hnew : statusesTo w w.nextReply = [] := by
      unfold statusesTo
      rw [eventsTo_new w w.nextReply hw.wireOld]; rfl
    have prior : ∀ r ∈ subscribers w id ++ [w.nextReply],
        (∀ job, w.jobs id = some job → ∀ y ∈ statusesTo w r, Status.le y job.status = true) ∧
        (w.jobs id = none → statusesTo w r = []) := by
      intro r hr
      rcases List.mem_append.mp hr with h1 | h1
      · obtain ⟨l, hl, hrl⟩ := mem_subscribers h1
        exact ⟨fun job hj => ho.bounded id l r job hl hrl hj, fun hj => ho.quiet id l r hl hrl hj⟩
      · rw [List.mem_singleton.mp h1, hnew]
        exact ⟨fun job _ y hy => (by cases hy), fun _ => rfl⟩
    have other : ∀ k l r, k ≠ id → w.clients k = some l → r ∈ l →
        r ∉ subscribers w id ++ [w.nextReply] := by
      intro k l r hk hl hr hm
      rcases List.mem_append.mp hm with h1 | h1
      · obtain ⟨l0, hl0, hr0⟩ := mem_subscribers h1
        exact hk (hw.oneId k id l l0 r hl hl0 hr hr0)
      · have := hw.registeredOld k l hl r hr
        rw [List.mem_singleton.mp h1] at this
        exact Nat.lt_irrefl _ this
    refine ⟨?_, ?_, ?_, ?_, ?_⟩
    · rw [hjobs, hpend]; exact ho.pendingDownloading
    · rw [hpend]; exact ho.pendingNodup
    · intro r
      rw [hst r]
      by_cases hr : r ∈ subscribers w id ++ [w.nextReply]
      · rw [if_pos hr]
        cases hj : w.jobs id with
        | none => rw [snapshotStatuses_none w id hj, List.append_nil]; exact ho.mono r
        | some job =>
          rw [snapshotStatuses_stored w id job hj, List.pairwise_append]
          refine ⟨ho.mono r, List.pairwise_singleton _ _, ?_⟩
          intro y hy m hm
          rw [List.mem_singleton.mp hm]
          exact (prior r hr).1 job hj y hy
      · rw [if_neg hr, List.append_nil]; exact ho.mono r
    · intro k l r job hl hr hj y hy
      rw [hcl] at hl
      rw [hjobs] at hj
      by_cases hk : k = id
      · subst hk
        rw [setProp_same] at hl
        cases hl
        rw [hst r, if_pos hr, snapshotStatuses_stored w k job hj] at hy
        rcases List.mem_append.mp hy with h1 | h1
        · exact (prior r hr).1 job hj y h1
        · rw [List.mem_singleton.mp h1]; exact Status.le_refl _
      · rw [setProp_other _ _ _ _ hk] at hl
        rw [hst r, if_neg (other k l r hk hl hr), List.append_nil] at hy
        exact ho.bounded k l r job hl hr hj y hy
    · intro k l r hl hr hj
      rw [hcl] at hl
      rw [hjobs] at hj
      by_cases hk : k = id
      · subst hk
        rw [setProp_same] at hl
        cases hl
        rw [hst r, if_pos hr, snapshotStatuses_none w k hj, List.append_nil]
        exact (prior r hr).2 hj
      · rw [setProp_other _ _ _ _ hk] at hl
        rw [hst r, if_neg (other k l r hk hl hr), List.append_nil]
        exact ho.quiet k l r hl hr hj
  · have h1 : w.clients id = none := by
      by_contra hc; exact h (Or.inl hc)
    have h2 : id ∈ objectPrototypeKeys := by
      by_contra hc; exact h (Or.inr hc)
    rw [downloadStatus_thrown { w with nextReply := w.nextReply + 1 } id w.nextReply h1 h2]
    exact ⟨ho.pendingDownloading, ho.pendingNodup, ho.mono, ho.bounded, ho.quiet⟩

theorem Ordered.afterClose {w : World} (ho : Ordered w) (id : Str) (reply : Client) :
    Ordered (closeHandler w id reply).world := by
  obtain ⟨hj, hp, _, hwire, _, _⟩ := closeHandler_frame w id reply
  have hst : ∀ r, statusesTo (closeHandler w id reply).world r = statusesTo w r := by
    intro r
    unfold statusesTo
    rw [eventsTo_eq_of_wire _ _ r hwire]
  refine ⟨?_, ?_, ?_, ?_, ?_⟩
  · rw [hj, hp]; exact ho.pendingDownloading
  · rw [hp]; exact ho.pendingNodup
  · intro r; rw [hst r]; exact ho.mono r
  · intro k l r job hl hr hjob
    obtain ⟨l0, hl0, hsub⟩ := closeHandler_shrinks w id reply k l hl
    rw [hj] at hjob
    rw [hst r]
    exact ho.bounded k l0 r job hl0 (hsub.subset hr) hjob
  · intro k l r hl hr hjob
    obtain ⟨l0, hl0, hsub⟩ := closeHandler_shrinks w id reply k l hl
    rw [hj] at hjob
    rw [hst r]
    exact ho.quiet k l0 r hl0 (hsub.subset hr) hjob

theorem Ordered.afterRun (up : Nat → Str) (dirname : Str) (actions : List Action) :
    ∀ {w : World}, Inv w → Ordered w → FreshIds up dirname w actions →
      Ordered (run up dirname w actions) := by
  induction actions with
  | nil => intro w _ ho _; exact ho
  | cons a rest ih =>
    intro w hw ho hf
    have hstep : Ordered (step up dirname w a) := by
      cases a with
      | downloadAsync req bytes spawnError =>
        exact Ordered.afterCreate up dirname hw ho req bytes spawnError hf.1
      | toolExit jobId result => exact Ordered.afterToolExit up dirname hw ho jobId result
      | downloadStatus id => exact Ordered.afterSubscribe hw ho id
      | close id reply => exact ho.afterClose id reply
      | downloadFile id =>
        show Ordered (downloadFile w id).2
        rw [downloadFile_world]; exact ho
      | socketDies reply =>
        exact ⟨ho.pendingDownloading, ho.pendingNodup, ho.mono, ho.bounded, ho.quiet⟩
    exact ih (hw.step up dirname a) hstep hf.2

/-- C2, as amended: in every execution in which each job creation draws an id under which no
job is stored yet (`FreshIds`), the statuses of the events written to a connection, snapshots included,
are never out of order: once repeats of the same status are merged, the list is a subsequence
of `starting, downloading, merging, complete` or of `starting, downloading, failed`. -/
theorem statuses_in_order (unicodeUpper : Nat → Str) (dirname : Str) (actions : List Action)
    (hfresh : FreshIds unicodeUpper dirname World.init actions) (r : Client) :
    (squeeze (statusesTo (run unicodeUpper dirname World.init actions) r)).Sublist
        [.starting, .downloading, .merging, .complete] ∨
    (squeeze (statusesTo (run unicodeUpper dirname World.init actions) r)).Sublist
        [.starting, .downloading, .failed] :=
  squeeze_sublist _
    ((Ordered.afterRun unicodeUpper dirname actions Inv.init Ordered.ofInit hfresh).mono r)

set_option maxRecDepth 100000 in
/-- Witness of the amended C2: a connection subscribes, a second one subscribes, the tool
succeeds; the first connection has seen `downloading` twice, then `merging` and `complete`. -/
theorem statuses_in_order_witness :
    FreshIds sampleUpper sampleDir World.init
      [.downloadAsync sampleRequest zeroBytes none, .downloadStatus zeroId,
       .downloadStatus zeroId, .toolExit zeroId none] ∧
    ((squeeze (statusesTo (run sampleUpper sampleDir World.init
      [.downloadAsync sampleRequest zeroBytes none, .downloadStatus zeroId,
       .downloadStatus zeroId, .toolExit zeroId none]) 0)).Sublist
        [.starting, .downloading, .merging, .complete] ∨
    (squeeze (statusesTo (run sampleUpper sampleDir World.init
      [.downloadAsync sampleRequest zeroBytes none, .downloadStatus zeroId,
       .downloadStatus zeroId, .toolExit zeroId none]) 0)).Sublist
        [.starting, .downloading, .failed]) :=
  have hf : FreshIds sampleUpper sampleDir World.init
      [.downloadAsync sampleRequest zeroBytes none, .downloadStatus zeroId,
       .downloadStatus zeroId, .toolExit zeroId none] :=
    ⟨fun _ => rfl, trivial, trivial, trivial, trivial⟩
  ⟨hf, statuses_in_order sampleUpper sampleDir _ hf 0⟩

set_option maxRecDepth 100000 in
/-- Counterexample to C2 as stated.  First execution: a job is created and two connections
subscribe to it; the snapshot of the second subscription is also written to the first
connection, which has now been sent `downloading` twice.  Second execution: a job finishes, a
connection subscribes and is sent `complete`, and a later creation draws the same sixteen
bytes; the connection is then sent `downloading`.  Neither list is a subsequence of one of
the two paths. -/
theorem statuses_not_subsequence :
    (statusesTo (run sampleUpper sampleDir World.init
        [.downloadAsync sampleRequest zeroBytes none, .downloadStatus zeroId,
         .downloadStatus zeroId]) 0 = [.downloading, .downloading] ∧
      ¬ ([Status.downloading, Status.downloading].Sublist
          [.starting, .downloading, .merging, .complete] ∨
        [Status.downloading, Status.downloading].Sublist
          [.starting, .downloading, .failed])) ∧
    (statusesTo (run sampleUpper sampleDir World.init
        [.downloadAsync sampleRequest zeroBytes none, .toolExit zeroId none,
         .downloadStatus zeroId, .downloadAsync sampleRequest zeroBytes none]) 0
        = [.complete, .downloading] ∧
      ¬ ([Status.complete, Status.downloading].Sublist
          [.starting, .downloading, .merging, .complete] ∨
        [Status.complete, Status.downloading].Sublist
          [.starting, .downloading, .failed])) := by
  decide

/-! ## A failed job stays failed -/

theorem FreshIds_append (up : Nat → Str) (dirname : Str) (pre post : List Action) :
    ∀ {w : World}, FreshIds up dirname w (pre ++ post) →
      FreshIds up dirname w pre ∧ FreshIds up dirname (run up dirname w pre) post := by
  induction pre with
  | nil => intro w h; exact ⟨trivial, h⟩
  | cons a rest ih =>
    intro w h
    have h2 := ih h.2
    exact ⟨⟨h.1, h2.1⟩, h2.2⟩

theorem failed_step (up : Nat → Str) (dirname : Str) {w : World} (hw : Inv w) (ho : Ordered w)
    (a : Action) (hf : FreshIds up dirname w [a]) (id : Str) (job : Job)
    (hj : w.jobs id = some job) (hs : job.status = .failed) :
    (step up dirname w a).jobs id = some job := by
  cases a with
  | downloadAsync req bytes spawnError =>
    show (downloadAsync up dirname w req bytes spawnError).2.jobs id = some job
    rcases downloadAsync_accepts up dirname w req bytes spawnError with h | ⟨title, h1, h2, h3⟩
    · rw [h]; exact hj
    · have hne : id ≠ hexEncode bytes.data := by
        intro he
        have hnone : w.jobs (hexEncode bytes.data) = none := hf.1 ⟨h1, h2, title, h3⟩
        rw [← he, hj] at hnone
        cases hnone
      obtain ⟨⟨ha, _⟩, hb⟩ := downloadAsync_taskStep up dirname w req bytes title h1 h2 h3
      cases spawnError with
      | none => rw [ha.jobs, setProp_other _ _ _ _ hne]; exact hj
      | some err => rw [(hb err).1.jobs, setProp_other _ _ _ _ hne]; exact hj
  | toolExit jobId result =>
    by_cases hp : jobId ∈ w.pending
    · have hne : id ≠ jobId := by
        intro he
        obtain ⟨job0, hj0, hs0⟩ := ho.pendingDownloading jobId hp
        rw [← he, hj] at hj0
        cases hj0
        rw [hs] at hs0
        cases hs0
      obtain ⟨job1, _, ⟨ha, _⟩, hb⟩ := toolExit_taskStep up dirname hw jobId hp
      cases result with
      | none => rw [ha.jobs, setProp_other _ _ _ _ hne]; exact hj
      | some err => rw [(hb err).1.jobs, setProp_other _ _ _ _ hne]; exact hj
    · have : step up dirname w (.toolExit jobId result) = w := by
        show (if jobId ∈ w.pending then _ else w) = w
        rw [if_neg hp]
      rw [this]; exact hj
  | downloadStatus k =>
    show (downloadStatus { w with nextReply := w.nextReply + 1 } k w.nextReply).world.jobs id
      = some job
    by_cases h : w.clients k ≠ none ∨ k ∉ objectPrototypeKeys
    · rw [downloadStatus_registers { w with nextReply := w.nextReply + 1 } k w.nextReply h]
      exact hj
    · have h1 : w.clients k = none := by
        by_contra hc; exact h (Or.inl hc)
      have h2 : k ∈ objectPrototypeKeys := by
        by_contra hc; exact h (Or.inr hc)
      rw [downloadStatus_thrown { w with nextReply := w.nextReply + 1 } k w.nextReply h1 h2]
      exact hj
  | close k reply =>
    show (closeHandler w k reply).world.jobs id = some job
    rw [(closeHandler_frame w k reply).1]; exact hj
  | downloadFile k =>
    show (downloadFile w k).2.jobs id = some job
    rw [downloadFile_world]; exact hj
  | socketDies reply => exact hj

theorem failed_run (up : Nat → Str) (dirname : Str) (actions : List Action) :
    ∀ {w : World}, Inv w → Ordered w → FreshIds up dirname w actions →
      ∀ (id : Str) (job : Job), w.jobs id = some job → job.status = .failed →
        (run up dirname w actions).jobs id = some job := by
  induction actions with
  | nil => intro w _ _ _ id job hj _; exact hj
  | cons a rest ih =>
    intro w hw ho hf id job hj hs
    have hf1 : FreshIds up dirname w [a] := ⟨hf.1, trivial⟩
    exact ih (hw.step up dirname a)
      (Ordered.afterRun up dirname [a] hw ho hf1) hf.2 id job
      (failed_step up dirname hw ho a hf1 id job hj hs) hs

/-- C4, as amended: the handler of `/download-file/:id` answers 404 with an error payload
exactly when no job is stored under the id or the stored job is not `complete`; it leaves the
world, hence the job store, unchanged, so a repeated request in an unchanged store gets the
same answer; a job whose status is `failed` gets 404, and in an execution in which each job
creation draws an id under which no job is stored yet (`FreshIds`) it stays `failed`, so the
answer stays 404 whatever happens later; a `complete` job gets the stream of its `outputPath`
with the header `Content-Disposition: attachment; filename="<job.title>.mp4"`. -/
theorem downloadFile_contract (w : World) (id : Str) :
    ((downloadFile w id).1 = .error 404 (utf16 "File not ready or not found.") ↔
      (w.jobs id = none ∨ ∃ job, w.jobs id = some job ∧ job.status ≠ .complete)) ∧
    (downloadFile w id).2 = w ∧
    downloadFile (downloadFile w id).2 id = downloadFile w id ∧
    (∀ job, w.jobs id = some job → job.status = .failed →
      (downloadFile w id).1 = .error 404 (utf16 "File not ready or not found.")) ∧
    (∀ (unicodeUpper : Nat → Str) (dirname : Str) (before later : List Action) (job : Job),
      w = run unicodeUpper dirname World.init before →
      FreshIds unicodeUpper dirname World.init (before ++ later) →
      w.jobs id = some job → job.status = .failed →
      (downloadFile (run unicodeUpper dirname w later) id).1
        = .error 404 (utf16 "File not ready or not found.")) ∧
    (∀ job, w.jobs id = some job → job.status = .complete →
      (downloadFile w id).1 =
        .fileStream job.outputPath
          (utf16 "attachment; filename=\"" ++ job.title ++ utf16 ".mp4\"")
          (utf16 "video/mp4")) := by
  have hcomplete : ∀ job, w.jobs id = some job → job.status = .complete →
      (downloadFile w id).1 =
        .fileStream job.outputPath (contentDisposition job.title) (utf16 "video/mp4") := by
    intro job hj hs
    simp only [downloadFile, getProp_some _ _ _ hj, hs, ne_eq, not_true_eq_false, if_false]
  have hother : ∀ (w2 : World) job, w2.jobs id = some job → job.status ≠ .complete →
      (downloadFile w2 id).1 = .error 404 (utf16 "File not ready or not found.") := by
    intro w2 job hj hs
    simp only [downloadFile, getProp_some _ _ _ hj, hs, ne_eq, not_false_eq_true, if_true]
  refine ⟨⟨?_, ?_⟩, downloadFile_world w id, by rw [downloadFile_world], ?_, ?_, hcomplete⟩
  · intro h
    cases hj : w.jobs id with
    | none => exact Or.inl rfl
    | some job =>
      refine Or.inr ⟨job, rfl, ?_⟩
      intro hs
      rw [hcomplete job hj hs] at h
      cases h
  · rintro (hj | ⟨job, hj, hs⟩)
    · unfold downloadFile getProp
      rw [hj]
      by_cases hk : id ∈ objectPrototypeKeys
      · simp only [hk, if_true]
      · simp only [hk, if_false]
    · exact hother w job hj hs
  · intro job hj hs
    exact hother w job hj (by rw [hs]; decide)
  · intro unicodeUpper dirname before later job hw hfresh hj hs
    obtain ⟨hf1, hf2⟩ := FreshIds_append unicodeUpper dirname before later hfresh
    rw [← hw] at hf2
    have hinv : Inv w := by rw [hw]; exact Inv.run unicodeUpper dirname before Inv.init
    have hord : Ordered w := by
      rw [hw]; exact Ordered.afterRun unicodeUpper dirname before Inv.init Ordered.ofInit hf1
    exact hother _ job (failed_run unicodeUpper dirname later hinv hord hf2 id job hj hs)
      (by rw [hs]; decide)

set_option maxRecDepth 100000 in
/-- Witness of the amended C4: the job of `failedWorld` is failed; a connection subscribes to
it and a second job, drawn with other bytes, is created and finishes; the request for the
file of the failed job is still answered with 404. -/
theorem downloadFile_contract_witness :
    FreshIds sampleUpper sampleDir World.init
      ([.downloadAsync sampleRequest zeroBytes none, .toolExit zeroId (some (utf16 "exit 1"))] ++
        [.downloadStatus zeroId, .downloadAsync sampleRequest otherBytes none,
         .toolExit (hexEncode otherBytes.data) none]) ∧
    (downloadFile (run sampleUpper sampleDir failedWorld
        [.downloadStatus zeroId, .downloadAsync sampleRequest otherBytes none,
         .toolExit (hexEncode otherBytes.data) none]) zeroId).1
      = .error 404 (utf16 "File not ready or not found.") :=
  have hf : FreshIds sampleUpper sampleDir World.init
      ([.downloadAsync sampleRequest zeroBytes none, .toolExit zeroId (some (utf16 "exit 1"))] ++
        [.downloadStatus zeroId, .downloadAsync sampleRequest otherBytes none,
         .toolExit (hexEncode otherBytes.data) none]) :=
    ⟨fun _ => rfl, trivial, trivial, fun _ => by decide, trivial, trivial⟩
  ⟨hf, (downloadFile_contract failedWorld zeroId).2.2.2.2.1 sampleUpper sampleDir
    [.downloadAsync sampleRequest zeroBytes none, .toolExit zeroId (some (utf16 "exit 1"))]
    [.downloadStatus zeroId, .downloadAsync sampleRequest otherBytes none,
     .toolExit (hexEncode otherBytes.data) none]
    ⟨.failed, 0,
      utf16 "/srv/app/downloads/00000000000000000000000000000000_My_Video__2024.mp4",
      utf16 "My_Video__2024"⟩ rfl hf (by decide) rfl⟩

set_option maxRecDepth 100000 in
/-- Counterexample to C4 as stated: the job stored under the id of sixteen zero bytes has
reached `failed` and the request for its file is answered with 404; a later creation draws
the same sixteen bytes and its tool succeeds; the same request is then answered with the
stream of a file. -/
theorem downloadFile_after_collision :
    (failedWorld.jobs zeroId).map (fun job => job.status) = some .failed ∧
    (downloadFile failedWorld zeroId).1 = .error 404 (utf16 "File not ready or not found.") ∧
    (downloadFile (run sampleUpper sampleDir failedWorld
        [.downloadAsync sampleRequest zeroBytes none, .toolExit zeroId none]) zeroId).1
      = .fileStream
          (utf16 "/srv/app/downloads/00000000000000000000000000000000_My_Video__2024.mp4")
          (utf16 "attachment; filename=\"My_Video__2024.mp4\"") (utf16 "video/mp4") := by
  decide
end Ytdl
